import Mathlib

/-!
Verification of the viem core subsystems against their specification:
the RLP codec, contract-address derivation, selector canonicalization,
the ABI parameter codec, the multicall demultiplexer, the call action's
empty-response handling, and the batch scheduler's split policy.

Bytes are modelled as natural numbers (< 256 where validity matters) and
byte strings as lists of naturals.  Machine arithmetic is explicit
(`% 2 ^ 256` and friends); fallible operations return `Option` or `Except`.
-/

namespace Viem

set_option maxRecDepth 4000

/-! ## Byte-sequence primitives -/

/-- Big-endian value of a byte sequence. -/
def bytesToNat (bs : List Nat) : Nat :=
  bs.foldl (fun acc b => acc * 256 + b) 0

/-- Minimal big-endian byte sequence of a natural number: no leading zero
bytes, and `0` is the empty sequence. -/
def beBytes (n : Nat) : List Nat :=
  if n = 0 then [] else beBytes (n / 256) ++ [n % 256]
decreasing_by exact Nat.div_lt_self (Nat.pos_of_ne_zero (by assumption)) (by omega)

/-- Fixed-width big-endian byte sequence (low `256 ^ w` residue of `n`). -/
def natToBytesBE (w : Nat) (n : Nat) : List Nat :=
  match w with
  | 0 => []
  | w + 1 => natToBytesBE w (n / 256) ++ [n % 256]

/-! ## RLP codec

Modelled from the spec: the repository's `toRlp`/`fromRlp` implementation is
not among the provided sources (only its callers, e.g. contract-address
derivation, are), so the codec below follows section 4.2 of the
specification: single bytes below `0x80` encode as themselves; byte strings
of length 0–55 get a one-byte `0x80 + len` header; longer byte strings get
`0xb7 + len_of_len` followed by the minimal big-endian length; lists follow
the same two tiers with bases `0xc0`/`0xf7`; decode enforces the canonical
minimal-length-encoding constraints. -/

/-- An RLP tree: byte strings and nested lists. -/
inductive RlpItem where
  | bytes (bs : List Nat)
  | list (items : List RlpItem)

/-- Length header for a payload of `len` bytes at tier base `base`
(`0x80` for strings, `0xc0` for lists). -/
def lenHeader (base len : Nat) : List Nat :=
  if len ≤ 55 then [base + len]
  else (base + 55 + (beBytes len).length) :: beBytes len

mutual

/-- Modelled from the spec: RLP encoding of a tree (spec section 4.2). -/
def rlpEncode : RlpItem → List Nat
  | .bytes bs =>
    if bs.length = 1 ∧ bs.headD 0 < 0x80 then bs
    else lenHeader 0x80 bs.length ++ bs
  | .list items =>
    lenHeader 0xc0 (rlpEncodeList items).length ++ rlpEncodeList items

/-- Concatenated RLP encodings of a list's elements. -/
def rlpEncodeList : List RlpItem → List Nat
  | [] => []
  | it :: rest => rlpEncode it ++ rlpEncodeList rest

end

/-- Modelled from the spec: the non-recursive byte-string tiers of RLP decode
(header byte at most `0xbf`).  Canonicity checks: a single byte below `0x80`
must be encoded as itself, and a long-form length must exceed 55 and carry no
leading zero byte. -/
def rlpDecodeStr (b : Nat) (rest : List Nat) : Option (RlpItem × List Nat) :=
  if b < 0x80 then some (.bytes [b], rest)
  else if b ≤ 0xb7 then
    let len := b - 0x80
    if len ≤ rest.length then
      let payload := rest.take len
      if len = 1 ∧ payload.headD 0 < 0x80 then none
      else some (.bytes payload, rest.drop len)
    else none
  else
    let lenOfLen := b - 0xb7
    if lenOfLen ≤ rest.length then
      let lenBytes := rest.take lenOfLen
      let len := bytesToNat lenBytes
      if lenBytes.headD 0 = 0 ∨ len ≤ 55 then none
      else
        let rest' := rest.drop lenOfLen
        if len ≤ rest'.length then
          some (.bytes (rest'.take len), rest'.drop len)
        else none
    else none

/-- Modelled from the spec: RLP decode of a buffer as a greedy sequence of
items, with `fuel` bounding the recursion depth (any fuel larger than the
buffer length is enough).  `none` plays the role of `InvalidRlpDataError`: a
declared length exceeding the remaining buffer and non-canonical
(non-minimal) length encodings are rejected. -/
def rlpDecodeSeqF : Nat → List Nat → Option (List RlpItem)
  | 0, _ => none
  | _ + 1, [] => some []
  | fuel + 1, b :: rest =>
    if b ≤ 0xbf then
      (rlpDecodeStr b rest).bind fun p =>
        (rlpDecodeSeqF fuel p.2).map fun items => p.1 :: items
    else if b ≤ 0xf7 then
      let len := b - 0xc0
      if len ≤ rest.length then
        (rlpDecodeSeqF fuel (rest.take len)).bind fun inner =>
          (rlpDecodeSeqF fuel (rest.drop len)).map fun items =>
            .list inner :: items
      else none
    else
      let lenOfLen := b - 0xf7
      if lenOfLen ≤ rest.length then
        let lenBytes := rest.take lenOfLen
        let len := bytesToNat lenBytes
        if lenBytes.headD 0 = 0 ∨ len ≤ 55 then none
        else
          let rest' := rest.drop lenOfLen
          if len ≤ rest'.length then
            (rlpDecodeSeqF fuel (rest'.take len)).bind fun inner =>
              (rlpDecodeSeqF fuel (rest'.drop len)).map fun items =>
                .list inner :: items
          else none
      else none

/-- Modelled from the spec: full-buffer RLP decode (`fromRlp`): exactly one
item, no trailing bytes. -/
def rlpDecode (bs : List Nat) : Option RlpItem :=
  match rlpDecodeSeqF (bs.length + 1) bs with
  | some [it] => some it
  | _ => none

mutual

/-- Every byte-string and list-payload length in the tree is below `2 ^ 64`,
so each length header stays within its one-byte tier range. -/
def rlpBoundedB : RlpItem → Bool
  | .bytes bs => decide (bs.length < 2 ^ 64)
  | .list items =>
    decide ((rlpEncodeList items).length < 2 ^ 64) && rlpBoundedListB items

/-- All elements of the list satisfy `rlpBoundedB`. -/
def rlpBoundedListB : List RlpItem → Bool
  | [] => true
  | it :: rest => rlpBoundedB it && rlpBoundedListB rest

end

/-! ## Contract-address derivation (CREATE)

From `src/src/utils/address/getContractAddress.ts`.  The `keccak256` hash and
the byte/hex conversions are external to the provided sources, so the hash is
an abstract parameter and an address is its 20-byte sequence (`getAddress`
only affects hex casing, not bytes).  `toBytes` on a number produces the
minimal big-endian form except that zero is the single byte `0x00`. -/

/-- Number-to-bytes conversion used by `getCreateAddress`: minimal big-endian,
with `toBytes 0 = [0x00]`. -/
def toBytesNum (n : Nat) : List Nat :=
  if n = 0 then [0] else beBytes n

/-- Last `n` bytes of a sequence. -/
def lastBytes (n : Nat) (l : List Nat) : List Nat :=
  l.drop (l.length - n)

/-- From the source of `getCreateAddress`: RLP-encode `[from, nonce]` with the
nonce's byte sequence replaced by the empty sequence when its first byte is
zero, hash, and keep the hex tail after position 26 (the last 20 bytes). -/
def getCreateAddress (keccak : List Nat → List Nat) (sender : List Nat)
    (nonce : Nat) : List Nat :=
  let nonceBytes := toBytesNum nonce
  let nonceBytes' := if nonceBytes.headD 0 = 0 then [] else nonceBytes
  (keccak (rlpEncode (.list [.bytes sender, .bytes nonceBytes']))).drop 12

/-! ## Selector canonicalization (`hashFunction`)

The source of `hashFunction` is among the provided files; its helpers
`extractFunctionName` / `extractFunctionParams` are not, so they are
modelled from the spec: the canonical signature keeps `name(type,type,...)`,
stripping parameter names and whitespace.  The hash (`keccak256`) is an
abstract parameter: equal canonical inputs yield equal hashes. -/

/-- Modelled from the spec: the text before the first opening bracket. -/
def extractFunctionName (s : List Char) : List Char :=
  s.takeWhile (fun c => c != '(')

/-- Modelled from the spec: the text between the brackets. -/
def extractInner (s : List Char) : List Char :=
  ((s.dropWhile (fun c => c != '(')).drop 1).takeWhile (fun c => c != ')')

/-- Modelled from the spec: a parameter's type is its first space-separated
token, after trimming leading spaces (this drops `indexed` markers and
parameter names, which follow the type). -/
def paramType (p : List Char) : List Char :=
  (p.dropWhile (fun c => c == ' ')).takeWhile (fun c => c != ' ')

/-- Modelled from the spec: the comma-separated parameter types. -/
def extractFunctionParams (s : List Char) : List (List Char) :=
  ((extractInner s).splitOn ',').map paramType

/-- Whether the signature text has a parameter list at all. -/
def hasParens (s : List Char) : Bool := s.any (fun c => c == '(')

/-- Whitespace removal used on bracket-free definitions. -/
def removeSpaces (s : List Char) : List Char := s.filter (fun c => c != ' ')

/-- From the source of `hashFunction`
(`hash(name + "(" + types.join(",") + ")")` when parameters parse, else
`hash(def.replace(/ /g, ""))`), over an abstract hash function. -/
def hashFunction {α : Type} (hashF : List Char → α) (s : List Char) : α :=
  if hasParens s then
    hashF (extractFunctionName s ++ ['('] ++
      List.intercalate [','] (extractFunctionParams s) ++ [')'])
  else hashF (removeSpaces s)

/-- The canonical spelling `name(type,type,...)`. -/
def renderCanonical (name : List Char) (tys : List (List Char)) : List Char :=
  name ++ ['('] ++ List.intercalate [','] tys ++ [')']

/-- A decorated parameter: optional leading spaces, the type, then a suffix
(parameter name, `indexed` marker, extra whitespace). -/
def renderParam (p : Nat × List Char × List Char) : List Char :=
  List.replicate p.1 ' ' ++ p.2.1 ++ p.2.2

/-- A signature spelled with parameter names and extra whitespace. -/
def renderDecorated (name : List Char)
    (ps : List (Nat × List Char × List Char)) : List Char :=
  name ++ ['('] ++ List.intercalate [','] (ps.map renderParam) ++ [')']

/-- A well-formed type token: nonempty, no space, comma or bracket. -/
def goodType (ty : List Char) : Prop :=
  ty ≠ [] ∧ ∀ c ∈ ty, c ≠ ' ' ∧ c ≠ ',' ∧ c ≠ '(' ∧ c ≠ ')'

/-- A well-formed decoration suffix: empty or starting with a space, and free
of commas and brackets. -/
def goodSuffix (suf : List Char) : Prop :=
  (suf = [] ∨ suf.headD ' ' = ' ') ∧ ∀ c ∈ suf, c ≠ ',' ∧ c ≠ '(' ∧ c ≠ ')'

instance goodType.dec : DecidablePred goodType := fun ty =>
  decidable_of_iff (ty ≠ [] ∧ ∀ c ∈ ty, c ≠ ' ' ∧ c ≠ ',' ∧ c ≠ '(' ∧ c ≠ ')')
    Iff.rfl

instance goodSuffix.dec : DecidablePred goodSuffix := fun suf =>
  decidable_of_iff ((suf = [] ∨ suf.headD ' ' = ' ') ∧
    ∀ c ∈ suf, c ≠ ',' ∧ c ≠ '(' ∧ c ≠ ')') Iff.rfl

/-! ## Multicall demultiplexing

From `src/src/actions/public/multicall.ts`.  `encodeFunctionData`,
`decodeFunctionResult` and `getContractError` are external to the provided
sources, so a contract entry carries its encode outcome (`none` models a
throw) and its decode function, and `getContractError`'s wrapping is the
`MErr.wrapped` constructor.  The aggregate executor (`readContract` on
`aggregate3`) is an injected function returning one
`{ success, returnData }` per call. -/

/-- One entry of the `contracts` argument, abstracted over the ABI layer:
its target address, its `encodeFunctionData` outcome and its
`decodeFunctionResult` function. -/
structure MContract (V : Type) where
  target : Nat
  enc : Option (List Nat)
  dec : List Nat → Option V

/-- One entry of the `aggregate3` calls argument. -/
structure MCall where
  allowFailure : Bool
  callData : List Nat
  target : Nat
deriving DecidableEq

/-- One entry of the `aggregate3` response. -/
structure MAggRes where
  success : Bool
  returnData : List Nat

/-- Errors surfaced by the result-mapping stage. -/
inductive MErr where
  | zeroData
  | raw (data : List Nat)
  | decodeFail
  | encodeFail
  | wrapped (cause : MErr)
deriving DecidableEq

/-- One multicall result entry (`allowFailure` mode). -/
inductive MResult (V : Type) where
  | success (v : V)
  | failure (e : MErr)

/-- From the source (lines 113-140): build one `aggregate3` call; a throwing
`encodeFunctionData` yields the `0x` placeholder when failures are allowed,
else the wrapped error propagates. -/
def buildCall {V : Type} (allowFailure : Bool) (c : MContract V) :
    Except MErr MCall :=
  match c.enc with
  | some callData => .ok { allowFailure := true, callData := callData, target := c.target }
  | none =>
    if allowFailure then
      .ok { allowFailure := true, callData := [], target := c.target }
    else .error (.wrapped .encodeFail)

def buildCalls {V : Type} (allowFailure : Bool) (cs : List (MContract V)) :
    Except MErr (List MCall) :=
  cs.mapM (buildCall allowFailure)

/-- The `0x`-placeholder form of `buildCall` when failures are allowed. -/
def buildCallAF {V : Type} (c : MContract V) : MCall :=
  match c.enc with
  | some callData => { allowFailure := true, callData := callData, target := c.target }
  | none => { allowFailure := true, callData := [], target := c.target }

/-- From the source (lines 152-159): the try-block of the result mapping. -/
def callOutcome {V : Type} (c : MContract V) (k : MCall) (r : MAggRes) :
    Except MErr V :=
  if k.callData = [] then .error .zeroData
  else if r.success = false then .error (.raw r.returnData)
  else
    match c.dec r.returnData with
    | some v => .ok v
    | none => .error .decodeFail

/-- From the source (lines 149-172): one result entry; errors are wrapped
with call-site context and become `failure` entries when failures are
allowed, else they propagate. -/
def stepResult {V : Type} (allowFailure : Bool) (c : MContract V) (k : MCall)
    (r : MAggRes) : Except MErr (MResult V) :=
  match callOutcome c k r with
  | .ok v => .ok (.success v)
  | .error e => if allowFailure then .ok (.failure (.wrapped e)) else .error (.wrapped e)

/-- Index-aligned traversal of the aggregate response (the source's
`results.map((r, i) => ...)`). -/
def multicallResults {V : Type} (allowFailure : Bool) :
    List (MContract V) → List MCall → List MAggRes →
      Except MErr (List (MResult V))
  | c :: cs, k :: ks, r :: rs => do
    let x ← stepResult allowFailure c k r
    let xs ← multicallResults allowFailure cs ks rs
    pure (x :: xs)
  | _, _, _ => .ok []

/-- The `allowFailure` demultiplexing of one position. -/
def demuxOne {V : Type} (c : MContract V) (k : MCall) (r : MAggRes) :
    MResult V :=
  match callOutcome c k r with
  | .ok v => .success v
  | .error e => .failure (.wrapped e)

/-- Three-way positional map. -/
def map3 {α β γ δ : Type} (f : α → β → γ → δ) :
    List α → List β → List γ → List δ
  | a :: as, b :: bs, c :: cs => f a b c :: map3 f as bs cs
  | _, _, _ => []

/-- From the source (lines 80-173): encode all calls, run the injected
aggregate executor, demultiplex the response. -/
def multicall {V : Type} (allowFailure : Bool) (cs : List (MContract V))
    (executor : List MCall → List MAggRes) :
    Except MErr (List (MResult V)) := do
  let calls ← buildCalls allowFailure cs
  multicallResults allowFailure cs calls (executor calls)

/-! ## The `call` action and the multicall scheduler path

From `src/src/actions/public/call.ts`: the direct `eth_call` path maps the
raw response `0x` (the empty byte string here) to `{ data: undefined }`; the
batched path (`scheduleMulticall`, lines 269-274) throws on a failed entry,
then maps `0x` return data to `{ data: undefined }` as well. -/

/-- From the source of `shouldPerformMulticall` (lines 175-185): calldata
present, not already an `aggregate3` call, target present, no other
properties. -/
def shouldPerformMulticall (aggSig : List Nat) (data : Option (List Nat))
    (toAddr : Option Nat) (otherProps : Bool) : Bool :=
  match data, toAddr with
  | some d, some _ => !(aggSig.isPrefixOf d) && !otherProps
  | _, _ => false

/-- From the source of `call` (lines 155-160): the direct response handling. -/
def callDirectResult (response : List Nat) : Option (List Nat) :=
  if response = [] then none else some response

/-- From the source of `scheduleMulticall` (lines 269-274): the scheduled
entry's `{ returnData, success }` handling. -/
def scheduleMulticallResult (success : Bool) (returnData : List Nat) :
    Except MErr (Option (List Nat)) :=
  if success = false then .error (.raw returnData)
  else if returnData = [] then .ok none
  else .ok (some returnData)

/-- From the source of `call` (lines 139-160): dispatch between the batched
path and the direct path. -/
def callAction (aggSig : List Nat) (batch : Bool) (data : Option (List Nat))
    (toAddr : Option Nat) (otherProps : Bool) (sched : Bool × List Nat)
    (directResponse : List Nat) : Except MErr (Option (List Nat)) :=
  if batch && shouldPerformMulticall aggSig data toAddr otherProps then
    scheduleMulticallResult sched.1 sched.2
  else .ok (callDirectResult directResponse)

/-! ## Batch scheduler

Modelled from the spec (section 4.6): `createBatchScheduler` is not among
the provided sources (only its caller `scheduleMulticall` is).  Within one
tick, registrations under one key are appended in order; the split predicate
is consulted with the would-be bucket before each append, and when it fires
the current bucket is flushed and a fresh bucket starts with the new
registration; the final bucket is flushed at the end of the tick. -/

/-- Modelled from the spec: one tick's worth of registrations, producing the
ordered list of flushed buckets (each flush is one executor invocation). -/
def runSched {R : Type} (split : List R → Bool) :
    List R → List R → List (List R)
  | [], bucket => if bucket.isEmpty then [] else [bucket]
  | r :: rest, bucket =>
    if split (bucket ++ [r]) then
      (if bucket.isEmpty then [] else [bucket]) ++ runSched split rest [r]
    else runSched split rest (bucket ++ [r])

/-- From the source of `scheduleMulticall` (lines 227-230): the injected
split predicate fires when the cumulative hex calldata length
(`data.length - 2` per entry, i.e. two hex characters per byte) exceeds
`batchSize * 2`. -/
def shouldSplitBatch (batchSize : Nat) (args : List (List Nat)) : Bool :=
  decide (args.foldl (fun size d => size + ((2 * d.length + 2) - 2)) 0 >
    batchSize * 2)

/-- Cumulative hex-character size of a bucket's calldata. -/
def hexSize (args : List (List Nat)) : Nat :=
  args.foldl (fun size d => size + 2 * d.length) 0

/-! ## Bucket resolution (C8)

Modelled from the spec (sections 3 and 4.6): on flush the executor receives
the bucket's ordered requests; on aggregated success pending call `i`
resolves with outcome `i`, on executor failure every pending call in the
bucket resolves with that same cause.  A resolution list entry per pending
call is the functional rendering of the one-shot resolvers. -/

/-- Modelled from the spec: resolutions delivered to a flushed bucket's
pending calls. -/
def flushBucket {E A R : Type} (exec : List R → Except E (List A))
    (bucket : List R) : List (Except E (Option A)) :=
  match exec bucket with
  | .ok results => (List.range bucket.length).map fun i => .ok (results.get? i)
  | .error e => bucket.map fun _ => .error e

/-- Full-tick resolution: flush every scheduled bucket. -/
def schedulerResolve {E A R : Type} (split : List R → Bool)
    (exec : List R → Except E (List A)) (regs : List R) :
    List (Except E (Option A)) :=
  ((runSched split regs []).map (flushBucket exec)).flatten

/-! ## ABI parameter codec

Modelled from the spec (sections 3, 4.3, 4.4): the ABI parameter codec is
not among the provided sources.  Values are encoded into a head region (one
slot per parameter: the inline value for static types, a byte offset into
the tail for dynamic types) followed by a tail region of self-contained
dynamic payloads; offsets are relative to the start of the value block.
Word values that cannot fit 32 bytes make encoding fail
(`SizeOverflowError`), so encoding is `Option`-valued. -/

/-- ABI types (spec section 3 `AbiType` shapes). -/
inductive AbiType where
  | uint (bits : Nat)
  | int (bits : Nat)
  | address
  | bool
  | fixedBytes (n : Nat)
  | bytes
  | string
  | tuple (components : List AbiType)
  | array (elem : AbiType) (length : Option Nat)

/-- ABI values: numbers, booleans, byte strings (also used for `string`
content) and component/element sequences. -/
inductive AbiValue where
  | vuint (n : Nat)
  | vint (i : Int)
  | vbool (b : Bool)
  | vbytes (bs : List Nat)
  | vtuple (vs : List AbiValue)

mutual

/-- Spec section 3: an array or tuple is dynamic iff any contained element
is dynamic or it is an unbounded array; `bytes`/`string` are dynamic. -/
def isDynamic : AbiType → Bool
  | .bytes => true
  | .string => true
  | .array _ none => true
  | .array elem (some _) => isDynamic elem
  | .tuple ts => isDynamicList ts
  | _ => false

def isDynamicList : List AbiType → Bool
  | [] => false
  | t :: ts => isDynamic t || isDynamicList ts

end

mutual

/-- Static width in bytes: fixed arrays are element width times length,
tuples the sum of component widths, all scalar slots one 32-byte word. -/
def staticSize : AbiType → Nat
  | .tuple ts => staticSizeList ts
  | .array elem (some n) => n * staticSize elem
  | _ => 32

def staticSizeList : List AbiType → Nat
  | [] => 0
  | t :: ts => staticSize t + staticSizeList ts

end

/-- Head-slot width of a parameter: a 32-byte offset word when dynamic,
else its inline static width. -/
def slotSize (t : AbiType) : Nat :=
  if isDynamic t then 32 else staticSize t

/-- Total head-region width of a parameter list. -/
def headLen : List AbiType → Nat
  | [] => 0
  | t :: ts => slotSize t + headLen ts

mutual

/-- Spec section 4.3 type-classifier constraints (`InvalidAbiTypeError`):
integer widths are multiples of 8 within 8–256, `bytesN` within 1–32;
tuples are nonempty and fixed arrays have positive length. -/
def wfTypeB : AbiType → Bool
  | .uint bits => decide (0 < bits ∧ bits ≤ 256 ∧ bits % 8 = 0)
  | .int bits => decide (0 < bits ∧ bits ≤ 256 ∧ bits % 8 = 0)
  | .address => true
  | .bool => true
  | .fixedBytes n => decide (1 ≤ n ∧ n ≤ 32)
  | .bytes => true
  | .string => true
  | .tuple ts => !ts.isEmpty && wfListB ts
  | .array elem (some n) => decide (1 ≤ n) && wfTypeB elem
  | .array elem none => wfTypeB elem

def wfListB : List AbiType → Bool
  | [] => true
  | t :: ts => wfTypeB t && wfListB ts

end

mutual

/-- Whether a value matches a type, with the numeric bounds of valid
values. -/
def typedB : AbiType → AbiValue → Bool
  | .uint bits, .vuint v => decide (v < 2 ^ bits)
  | .int bits, .vint i =>
    decide (-(2 ^ (bits - 1) : Int) ≤ i ∧ i < 2 ^ (bits - 1))
  | .address, .vuint v => decide (v < 2 ^ 160)
  | .bool, .vbool _ => true
  | .fixedBytes n, .vbytes bs =>
    decide (bs.length = n) && bs.all (fun b => decide (b < 256))
  | .bytes, .vbytes bs => bs.all (fun b => decide (b < 256))
  | .string, .vbytes bs => bs.all (fun b => decide (b < 256))
  | .tuple ts, .vtuple vs => typedListB ts vs
  | .array elem none, .vtuple vs => typedElemsB elem vs
  | .array elem (some n), .vtuple vs =>
    decide (vs.length = n) && typedElemsB elem vs
  | _, _ => false

def typedListB : List AbiType → List AbiValue → Bool
  | [], [] => true
  | t :: ts, v :: vs => typedB t v && typedListB ts vs
  | _, _ => false

def typedElemsB : AbiType → List AbiValue → Bool
  | _, [] => true
  | t, v :: vs => typedB t v && typedElemsB t vs

end

/-- A 32-byte big-endian word. -/
def wordEnc (k : Nat) : List Nat := natToBytesBE 32 k

/-- A 32-byte word that fails (the spec's `SizeOverflowError` on `pad`)
when the value does not fit. -/
def wordEncChecked (k : Nat) : Option (List Nat) :=
  if k < 2 ^ 256 then some (natToBytesBE 32 k) else none

/-- Right-pad content to a 32-byte boundary. -/
def padRight32 (bs : List Nat) : List Nat :=
  bs ++ List.replicate ((32 - bs.length % 32) % 32) 0

/-- Read the 32-byte word at byte offset `pos`. -/
def readWord (data : List Nat) (pos : Nat) : Option Nat :=
  if pos + 32 ≤ data.length then
    some (bytesToNat ((data.drop pos).take 32))
  else none

mutual

/-- Modelled from the spec (section 4.4): the inline words of a static
parameter, or the self-contained tail block of a dynamic parameter
(`bytes`/`string`: length word then right-padded content; dynamic arrays:
count word then the elements' own head/tail block; tuples and fixed
arrays: their components' head/tail block, which is all-inline when the
type is static). -/
def enc : AbiType → AbiValue → Option (List Nat)
  | .uint _, .vuint v => wordEncChecked v
  | .int _, .vint i => some (natToBytesBE 32 (i.emod (2 ^ 256)).toNat)
  | .address, .vuint v => wordEncChecked v
  | .bool, .vbool b => some (wordEnc (if b then 1 else 0))
  | .fixedBytes _, .vbytes bs =>
    if bs.length ≤ 32 then some (bs ++ List.replicate (32 - bs.length) 0)
    else none
  | .bytes, .vbytes bs =>
    (wordEncChecked bs.length).map (fun lenW => lenW ++ padRight32 bs)
  | .string, .vbytes bs =>
    (wordEncChecked bs.length).map (fun lenW => lenW ++ padRight32 bs)
  | .tuple ts, .vtuple vs =>
    (encBlockAux (headLen ts) ts vs).map (fun p => p.1 ++ p.2)
  | .array elem (some n), .vtuple vs =>
    if vs.length = n then
      (encBlockAux (headLen (List.replicate n elem))
        (List.replicate n elem) vs).map (fun p => p.1 ++ p.2)
    else none
  | .array elem none, .vtuple vs =>
    (wordEncChecked vs.length).bind (fun cnt =>
      (encBlockAux (headLen (List.replicate vs.length elem))
        (List.replicate vs.length elem) vs).map
        (fun p => cnt ++ (p.1 ++ p.2)))
  | _, _ => none

/-- Head and tail regions of a value block; `base` is the running tail
offset (head length plus tail bytes already emitted). -/
def encBlockAux (base : Nat) : List AbiType → List AbiValue →
    Option (List Nat × List Nat)
  | [], [] => some ([], [])
  | t :: ts, v :: vs =>
    if isDynamic t then
      (enc t v).bind (fun blk =>
        (wordEncChecked base).bind (fun off =>
          (encBlockAux (base + blk.length) ts vs).map
            (fun p => (off ++ p.1, blk ++ p.2))))
    else
      (enc t v).bind (fun e =>
        (encBlockAux base ts vs).map (fun p => (e ++ p.1, p.2)))
  | _, _ => none

end

/-- A whole value block: heads then tails. -/
def encBlock (ts : List AbiType) (vs : List AbiValue) : Option (List Nat) :=
  (encBlockAux (headLen ts) ts vs).map (fun p => p.1 ++ p.2)

/-- Modelled from the spec: `encodeAbiParameters`
(`AbiEncodingLengthMismatchError` on arity mismatch). -/
def encodeAbiParameters (ts : List AbiType) (vs : List AbiValue) :
    Option (List Nat) :=
  if ts.length = vs.length then encBlock ts vs else none

mutual

/-- Modelled from the spec: decode a static value from the front of `data`
(a suffix of the value block). -/
def decStatic : AbiType → List Nat → Option AbiValue
  | .uint _, data => (readWord data 0).map .vuint
  | .int _, data => (readWord data 0).map (fun w =>
      .vint (if w < 2 ^ 255 then (w : Int) else (w : Int) - 2 ^ 256))
  | .address, data => (readWord data 0).map (fun w => .vuint (w % 2 ^ 160))
  | .bool, data => (readWord data 0).bind (fun w =>
      if w = 0 then some (.vbool false)
      else if w = 1 then some (.vbool true) else none)
  | .fixedBytes n, data =>
    if 32 ≤ data.length then some (.vbytes (data.take n)) else none
  | .tuple ts, data => (decStaticList ts data).map .vtuple
  | .array elem (some n), data =>
    if isDynamic elem then none
    else (decStaticElems elem n data).map .vtuple
  | _, _ => none
termination_by t _ => (sizeOf t, 0, 0)
decreasing_by
  all_goals simp_wf
  all_goals first
    | (apply Prod.Lex.left
       omega)
    | (apply Prod.Lex.left
       simp
       omega)
    | (apply Prod.Lex.right
       apply Prod.Lex.left
       omega)
    | (apply Prod.Lex.right
       apply Prod.Lex.right
       omega)

def decStaticList : List AbiType → List Nat → Option (List AbiValue)
  | [], _ => some []
  | t :: ts, data =>
    (decStatic t data).bind (fun v =>
      (decStaticList ts (data.drop (staticSize t))).map (fun vs => v :: vs))
termination_by ts _ => (sizeOf ts, 0, 0)
decreasing_by
  all_goals simp_wf
  all_goals first
    | (apply Prod.Lex.left
       omega)
    | (apply Prod.Lex.left
       simp
       omega)
    | (apply Prod.Lex.right
       apply Prod.Lex.left
       omega)
    | (apply Prod.Lex.right
       apply Prod.Lex.right
       omega)

def decStaticElems (elem : AbiType) : Nat → List Nat → Option (List AbiValue)
  | 0, _ => some []
  | n + 1, data =>
    (decStatic elem data).bind (fun v =>
      (decStaticElems elem n (data.drop (staticSize elem))).map
        (fun vs => v :: vs))
termination_by n _ => (sizeOf elem, n, 1)
decreasing_by
  all_goals simp_wf
  all_goals first
    | (apply Prod.Lex.left
       omega)
    | (apply Prod.Lex.left
       simp
       omega)
    | (apply Prod.Lex.right
       apply Prod.Lex.left
       omega)
    | (apply Prod.Lex.right
       apply Prod.Lex.right
       omega)

end

mutual

/-- Modelled from the spec: decode a dynamic payload found at its offset;
`data` is the payload's suffix of the block (its own bytes first, the rest
of the outer tail after). -/
def decDyn : AbiType → List Nat → Option AbiValue
  | .bytes, data =>
    (readWord data 0).bind (fun len =>
      if len ≤ (data.drop 32).length then
        some (.vbytes ((data.drop 32).take len))
      else none)
  | .string, data =>
    (readWord data 0).bind (fun len =>
      if len ≤ (data.drop 32).length then
        some (.vbytes ((data.drop 32).take len))
      else none)
  | .tuple ts, data => (decBlockList ts data 0).map .vtuple
  | .array elem (some n), data => (decBlockElems elem n data 0).map .vtuple
  | .array elem none, data =>
    (readWord data 0).bind (fun n =>
      (decBlockElems elem n (data.drop 32) 0).map .vtuple)
  | _, _ => none
termination_by t _ => (sizeOf t, 0, 0)
decreasing_by
  all_goals simp_wf
  all_goals first
    | (apply Prod.Lex.left
       omega)
    | (apply Prod.Lex.left
       simp
       omega)
    | (apply Prod.Lex.right
       apply Prod.Lex.left
       omega)
    | (apply Prod.Lex.right
       apply Prod.Lex.right
       omega)

/-- One head slot at byte position `pos` of block `data`: inline for static
types, offset-indirection into the block for dynamic types. -/
def decHead (t : AbiType) (data : List Nat) (pos : Nat) : Option AbiValue :=
  if isDynamic t then
    (readWord data pos).bind (fun off => decDyn t (data.drop off))
  else decStatic t (data.drop pos)
termination_by (sizeOf t, 0, 1)
decreasing_by
  all_goals simp_wf
  all_goals first
    | (apply Prod.Lex.left
       omega)
    | (apply Prod.Lex.left
       simp
       omega)
    | (apply Prod.Lex.right
       apply Prod.Lex.left
       omega)
    | (apply Prod.Lex.right
       apply Prod.Lex.right
       omega)

def decBlockList : List AbiType → List Nat → Nat → Option (List AbiValue)
  | [], _, _ => some []
  | t :: ts, data, pos =>
    (decHead t data pos).bind (fun v =>
      (decBlockList ts data (pos + slotSize t)).map (fun vs => v :: vs))
termination_by ts _ _ => (sizeOf ts, 0, 0)
decreasing_by
  all_goals simp_wf
  all_goals first
    | (apply Prod.Lex.left
       omega)
    | (apply Prod.Lex.left
       simp
       omega)
    | (apply Prod.Lex.right
       apply Prod.Lex.left
       omega)
    | (apply Prod.Lex.right
       apply Prod.Lex.right
       omega)

def decBlockElems (elem : AbiType) : Nat → List Nat → Nat →
    Option (List AbiValue)
  | 0, _, _ => some []
  | n + 1, data, pos =>
    (decHead elem data pos).bind (fun v =>
      (decBlockElems elem n data (pos + slotSize elem)).map
        (fun vs => v :: vs))
termination_by n _ _ => (sizeOf elem, n, 2)
decreasing_by
  all_goals simp_wf
  all_goals first
    | (apply Prod.Lex.left
       omega)
    | (apply Prod.Lex.left
       simp
       omega)
    | (apply Prod.Lex.right
       apply Prod.Lex.left
       omega)
    | (apply Prod.Lex.right
       apply Prod.Lex.right
       omega)

end

/-- Modelled from the spec: `decodeAbiParameters`
(`AbiDecodingZeroDataError` on empty data with parameters present,
`AbiDecodingDataSizeInvalidError` when the length is not a multiple of
32). -/
def decodeAbiParameters (ts : List AbiType) (data : List Nat) :
    Option (List AbiValue) :=
  if ts.isEmpty then some []
  else if data.isEmpty then none
  else if data.length % 32 ≠ 0 then none
  else decBlockList ts data 0

/-- A nested example: a tuple holding a dynamic array of (uint8, string)
tuples, a dynamic array of dynamic arrays, an empty string and an empty
dynamic array. -/
def c1ExampleTypes : List AbiType :=
  [.tuple [.uint 256, .array (.tuple [.uint 8, .string]) none],
   .array (.array (.uint 256) none) none,
   .string,
   .array (.uint 256) none]

def c1ExampleValues : List AbiValue :=
  [.vtuple [.vuint 7, .vtuple [.vtuple [.vuint 1, .vbytes [104, 105]],
     .vtuple [.vuint 2, .vbytes []]]],
   .vtuple [.vtuple [.vuint 3, .vuint 4], .vtuple []],
   .vbytes [],
   .vtuple []]

theorem bytesToNat_append_singleton (bs : List Nat) (b : Nat) :
    bytesToNat (bs ++ [b]) = 256 * bytesToNat bs + b := by
  simp [bytesToNat, List.foldl_append]
  ring

theorem foldl_byte_base (t : List Nat) (acc : Nat) :
    t.foldl (fun a b => a * 256 + b) acc =
      acc * 256 ^ t.length + t.foldl (fun a b => a * 256 + b) 0 := by
  induction t generalizing acc with
  | nil => simp
  | cons x xs ih =>
    simp only [List.foldl_cons, List.length_cons]
    rw [ih (acc * 256 + x), ih (0 * 256 + x)]
    ring

theorem bytesToNat_cons (a : Nat) (t : List Nat) :
    bytesToNat (a :: t) = a * 256 ^ t.length + bytesToNat t := by
  simp only [bytesToNat, List.foldl_cons]
  rw [foldl_byte_base]
  simp

theorem natToBytesBE_length (w n : Nat) : (natToBytesBE w n).length = w := by
  induction w generalizing n with
  | zero => rfl
  | succ w ih => simp [natToBytesBE, ih]

theorem bytesToNat_natToBytesBE (w n : Nat) :
    bytesToNat (natToBytesBE w n) = n % 256 ^ w := by
  induction w generalizing n with
  | zero => simp [natToBytesBE, bytesToNat, Nat.mod_one]
  | succ w ih =>
    rw [natToBytesBE, bytesToNat_append_singleton, ih]
    have h3 : (256 : Nat) ^ (w + 1) = 256 * 256 ^ w := by ring
    rw [h3]
    have h1 : n % (256 * 256 ^ w) / 256 = n / 256 % 256 ^ w :=
      Nat.mod_mul_right_div_self n 256 (256 ^ w)
    have h2 : n % (256 * 256 ^ w) % 256 = n % 256 :=
      Nat.mod_mod_of_dvd n ⟨256 ^ w, rfl⟩
    have h4 := Nat.div_add_mod (n % (256 * 256 ^ w)) 256
    rw [h1, h2] at h4
    omega

theorem beBytes_zero : beBytes 0 = [] := by rw [beBytes]; simp

theorem beBytes_pos (n : Nat) (h : n ≠ 0) :
    beBytes n = beBytes (n / 256) ++ [n % 256] := by
  rw [beBytes]; simp [h]

theorem bytesToNat_beBytes (n : Nat) : bytesToNat (beBytes n) = n := by
  induction n using Nat.strong_induction_on with
  | _ n ih =>
    by_cases h : n = 0
    · subst h; rw [beBytes_zero]; rfl
    · rw [beBytes_pos n h, bytesToNat_append_singleton,
        ih (n / 256) (Nat.div_lt_self (Nat.pos_of_ne_zero h) (by omega))]
      omega

theorem beBytes_ne_nil (n : Nat) (h : n ≠ 0) : beBytes n ≠ [] := by
  rw [beBytes_pos n h]
  simp

theorem beBytes_head_ne_zero (n : Nat) (h : n ≠ 0) :
    (beBytes n).headD 0 ≠ 0 := by
  induction n using Nat.strong_induction_on with
  | _ n ih =>
    rw [beBytes_pos n h]
    by_cases h2 : n / 256 = 0
    · have : n % 256 ≠ 0 := by omega
      simp [h2, beBytes_zero, this]
    · have hne := beBytes_ne_nil (n / 256) h2
      have := ih (n / 256) (Nat.div_lt_self (Nat.pos_of_ne_zero h) (by omega)) h2
      rcases List.exists_cons_of_ne_nil hne with ⟨a, t, heq⟩
      rw [heq] at this ⊢
      simpa using this

theorem beBytes_lt (n : Nat) : ∀ b ∈ beBytes n, b < 256 := by
  induction n using Nat.strong_induction_on with
  | _ n ih =>
    by_cases h : n = 0
    · subst h; rw [beBytes_zero]; simp
    · rw [beBytes_pos n h]
      intro b hb
      rcases List.mem_append.mp hb with hb | hb
      · exact ih (n / 256) (Nat.div_lt_self (Nat.pos_of_ne_zero h) (by omega)) b hb
      · simp at hb; omega

/-- Inverse direction of minimal big-endian: a byte sequence with no leading
zero re-encodes to itself. -/
theorem beBytes_bytesToNat (bs : List Nat) (hlt : ∀ b ∈ bs, b < 256)
    (hmin : bs = [] ∨ bs.headD 0 ≠ 0) : beBytes (bytesToNat bs) = bs := by
  induction bs using List.reverseRecOn with
  | nil => simpa [bytesToNat] using beBytes_zero
  | append_singleton bs b ih =>
    rw [bytesToNat_append_singleton]
    have hb : b < 256 := hlt b (by simp)
    by_cases hz : 256 * bytesToNat bs + b = 0
    · have hv : bytesToNat bs = 0 ∧ b = 0 := by omega
      rcases hmin with hmin | hmin
      · simp at hmin
      · rcases bs with _ | ⟨a, t⟩
        · simp at hmin
          exact absurd hv.2 hmin
        · exfalso
          have ha : a ≠ 0 := by simpa using hmin
          have : bytesToNat (a :: t) > 0 := by
            rw [bytesToNat_cons]
            have : 0 < 256 ^ t.length := Nat.pos_pow_of_pos _ (by omega)
            have : 0 < a * 256 ^ t.length := Nat.mul_pos (Nat.pos_of_ne_zero ha) this
            omega
          omega
    · rw [beBytes_pos _ hz]
      have h1 : (256 * bytesToNat bs + b) / 256 = bytesToNat bs := by omega
      have h2 : (256 * bytesToNat bs + b) % 256 = b := by omega
      rw [h1, h2]
      congr 1
      apply ih (fun x hx => hlt x (by simp [hx]))
      rcases bs with _ | ⟨a, t⟩
      · exact Or.inl rfl
      · right
        rcases hmin with hmin | hmin
        · simp at hmin
        · simpa using hmin

theorem beBytes_length_le (k n : Nat) (h : n < 256 ^ k) :
    (beBytes n).length ≤ k := by
  induction k generalizing n with
  | zero =>
    have : n = 0 := by simpa using h
    subst this
    simp [beBytes_zero]
  | succ k ih =>
    by_cases hz : n = 0
    · subst hz; simp [beBytes_zero]
    · rw [beBytes_pos n hz]
      have : n / 256 < 256 ^ k := by
        rw [Nat.div_lt_iff_lt_mul (by omega)]
        calc n < 256 ^ (k + 1) := h
        _ = 256 ^ k * 256 := by ring
      simpa using ih (n / 256) this

theorem bytesToNat_lt (bs : List Nat) (h : ∀ b ∈ bs, b < 256) :
    bytesToNat bs < 256 ^ bs.length := by
  induction bs using List.reverseRecOn with
  | nil => simp [bytesToNat]
  | append_singleton bs b ih =>
    rw [bytesToNat_append_singleton]
    have hb : b < 256 := h b (by simp)
    have := ih (fun x hx => h x (by simp [hx]))
    simp only [List.length_append, List.length_singleton, Nat.pow_succ]
    omega

theorem lenHeader_ne_nil (base len : Nat) : lenHeader base len ≠ [] := by
  unfold lenHeader
  split <;> simp

theorem rlpEncode_length_pos (it : RlpItem) : 0 < (rlpEncode it).length := by
  cases it with
  | bytes bs =>
    rw [rlpEncode]
    split
    · rename_i h
      omega
    · have h0 := lenHeader_ne_nil 0x80 bs.length
      have h1 : 0 < (lenHeader 0x80 bs.length).length := List.length_pos.mpr h0
      simp only [List.length_append]
      omega
  | list items =>
    rw [rlpEncode]
    have h0 := lenHeader_ne_nil 0xc0 (rlpEncodeList items).length
    have h1 : 0 < (lenHeader 0xc0 (rlpEncodeList items).length).length :=
      List.length_pos.mpr h0
    simp only [List.length_append]
    omega

/-- Decoding step: a single byte below `0x80` stands for itself. -/
theorem rlpDecodeStr_single (b : Nat) (hb : b < 0x80) (rest : List Nat) :
    rlpDecodeStr b rest = some (.bytes [b], rest) := by
  unfold rlpDecodeStr
  rw [if_pos hb]

/-- Decoding step: a short-form byte string. -/
theorem rlpDecodeStr_short (bs tail : List Nat) (h55 : bs.length ≤ 55)
    (hcanon : ¬(bs.length = 1 ∧ bs.headD 0 < 0x80)) :
    rlpDecodeStr (0x80 + bs.length) (bs ++ tail) = some (.bytes bs, tail) := by
  unfold rlpDecodeStr
  have c1 : ¬(0x80 + bs.length < 0x80) := by omega
  have c2 : 0x80 + bs.length ≤ 0xb7 := by omega
  have hlen : 0x80 + bs.length - 0x80 = bs.length := by omega
  rw [if_neg c1, if_pos c2]
  simp only [hlen]
  have hle : bs.length ≤ (bs ++ tail).length := by simp
  rw [if_pos hle, List.take_left, List.drop_left]
  rw [if_neg hcanon]

/-- Decoding step: a long-form byte string. -/
theorem rlpDecodeStr_long (bs tail : List Nat) (h55 : 55 < bs.length)
    (h64 : bs.length < 2 ^ 64) :
    rlpDecodeStr (0xb7 + (beBytes bs.length).length)
        (beBytes bs.length ++ (bs ++ tail)) = some (.bytes bs, tail) := by
  have hlen0 : bs.length ≠ 0 := by omega
  unfold rlpDecodeStr
  have c1 : ¬(0xb7 + (beBytes bs.length).length < 0x80) := by omega
  have c2 : ¬(0xb7 + (beBytes bs.length).length ≤ 0xb7) := by
    have hL : 1 ≤ (beBytes bs.length).length := by
      have := beBytes_ne_nil bs.length hlen0
      cases h : beBytes bs.length with
      | nil => exact absurd h this
      | cons a t => simp
    omega
  rw [if_neg c1, if_neg c2]
  have hlenOf : 0xb7 + (beBytes bs.length).length - 0xb7 =
      (beBytes bs.length).length := by omega
  simp only [hlenOf]
  have hle : (beBytes bs.length).length ≤
      (beBytes bs.length ++ (bs ++ tail)).length := by simp
  rw [if_pos hle, List.take_left, List.drop_left]
  have hval : bytesToNat (beBytes bs.length) = bs.length := bytesToNat_beBytes _
  rw [hval]
  have hcanon : ¬((beBytes bs.length).headD 0 = 0 ∨ bs.length ≤ 55) := by
    push_neg
    exact ⟨beBytes_head_ne_zero bs.length hlen0, h55⟩
  rw [if_neg hcanon]
  have hle2 : bs.length ≤ (bs ++ tail).length := by simp
  rw [if_pos hle2, List.take_left, List.drop_left]

/-- Soundness of the RLP codec: decoding the encoding of a bounded item
sequence, with enough fuel, returns the original sequence. -/
theorem rlpDecodeSeqF_encodeList (fuel : Nat) :
    ∀ items : List RlpItem, rlpBoundedListB items = true →
      (rlpEncodeList items).length < fuel →
      rlpDecodeSeqF fuel (rlpEncodeList items) = some items := by
  induction fuel with
  | zero =>
    intro items _ h
    omega
  | succ fuel ih =>
    intro items hb hlen
    match items with
    | [] =>
      rw [rlpEncodeList]
      rfl
    | it :: rest =>
      rw [rlpEncodeList] at hlen ⊢
      rw [rlpBoundedListB] at hb
      simp only [Bool.and_eq_true] at hb
      obtain ⟨hbit, hbrest⟩ := hb
      have hpos := rlpEncode_length_pos it
      have hrest_len : (rlpEncodeList rest).length < fuel := by
        simp only [List.length_append] at hlen
        omega
      have hrec := ih rest hbrest hrest_len
      match it with
      | .bytes bs =>
        rw [rlpBoundedB] at hbit
        have h64 : bs.length < 2 ^ 64 := by simpa using hbit
        by_cases hsingle : bs.length = 1 ∧ bs.headD 0 < 0x80
        · obtain ⟨b, rfl⟩ := List.length_eq_one.mp hsingle.1
          have hb0 : b < 0x80 := by simpa using hsingle.2
          rw [rlpEncode, if_pos hsingle]
          simp only [List.cons_append, List.nil_append]
          rw [rlpDecodeSeqF]
          rw [if_pos (show b ≤ 0xbf by omega)]
          rw [rlpDecodeStr_single b hb0]
          simp only [Option.some_bind, hrec, Option.map_some']
        · rw [rlpEncode, if_neg hsingle]
          by_cases h55 : bs.length ≤ 55
          · rw [lenHeader, if_pos h55]
            simp only [List.cons_append, List.nil_append, List.append_assoc]
            rw [rlpDecodeSeqF]
            rw [if_pos (show 0x80 + bs.length ≤ 0xbf by omega)]
            rw [rlpDecodeStr_short bs _ h55 hsingle]
            simp only [Option.some_bind, hrec, Option.map_some']
          · rw [lenHeader, if_neg h55]
            have hL8 : (beBytes bs.length).length ≤ 8 :=
              beBytes_length_le 8 _ (by norm_num at h64 ⊢; omega)
            simp only [List.cons_append, List.nil_append, List.append_assoc]
            rw [rlpDecodeSeqF]
            rw [if_pos (show 0x80 + 55 + (beBytes bs.length).length ≤ 0xbf by omega)]
            have he : (0x80 + 55 : Nat) = 0xb7 := by norm_num
            rw [he]
            rw [rlpDecodeStr_long bs _ (by omega) h64]
            simp only [Option.some_bind, hrec, Option.map_some']
      | .list its =>
        rw [rlpBoundedB] at hbit
        simp only [Bool.and_eq_true, decide_eq_true_eq] at hbit
        obtain ⟨h64, hbits⟩ := hbit
        rw [rlpEncode]
        by_cases h55 : (rlpEncodeList its).length ≤ 55
        · rw [lenHeader, if_pos h55]
          simp only [List.cons_append, List.nil_append, List.append_assoc]
          rw [rlpDecodeSeqF]
          rw [if_neg (show ¬(0xc0 + (rlpEncodeList its).length ≤ 0xbf) by omega)]
          rw [if_pos (show 0xc0 + (rlpEncodeList its).length ≤ 0xf7 by omega)]
          have hsub : 0xc0 + (rlpEncodeList its).length - 0xc0 =
              (rlpEncodeList its).length := by omega
          simp only [hsub]
          have hle : (rlpEncodeList its).length ≤
              (rlpEncodeList its ++ rlpEncodeList rest).length := by simp
          rw [if_pos hle, List.take_left, List.drop_left]
          have hinner_len : (rlpEncodeList its).length < fuel := by
            rw [rlpEncode, lenHeader, if_pos h55] at hpos hlen
            simp only [List.length_append, List.cons_append, List.length_cons] at hlen
            omega
          rw [ih its hbits hinner_len]
          simp only [Option.some_bind, hrec, Option.map_some']
        · rw [lenHeader, if_neg h55]
          have hplen0 : (rlpEncodeList its).length ≠ 0 := by omega
          have hL1 : 1 ≤ (beBytes (rlpEncodeList its).length).length := by
            have := beBytes_ne_nil _ hplen0
            cases h : beBytes (rlpEncodeList its).length with
            | nil => exact absurd h this
            | cons a t => simp
          have hL8 : (beBytes (rlpEncodeList its).length).length ≤ 8 :=
            beBytes_length_le 8 _ (by norm_num at h64 ⊢; omega)
          simp only [List.cons_append, List.nil_append, List.append_assoc]
          rw [rlpDecodeSeqF]
          rw [if_neg (show ¬(0xc0 + 55 + (beBytes (rlpEncodeList its).length).length
            ≤ 0xbf) by omega)]
          rw [if_neg (show ¬(0xc0 + 55 + (beBytes (rlpEncodeList its).length).length
            ≤ 0xf7) by omega)]
          have hsub : 0xc0 + 55 + (beBytes (rlpEncodeList its).length).length - 0xf7 =
              (beBytes (rlpEncodeList its).length).length := by omega
          simp only [hsub]
          have hle : (beBytes (rlpEncodeList its).length).length ≤
              (beBytes (rlpEncodeList its).length ++
                (rlpEncodeList its ++ rlpEncodeList rest)).length := by simp
          rw [if_pos hle, List.take_left, List.drop_left]
          rw [bytesToNat_beBytes]
          rw [if_neg (show ¬((beBytes (rlpEncodeList its).length).headD 0 = 0 ∨
              (rlpEncodeList its).length ≤ 55) by
            push_neg
            exact ⟨beBytes_head_ne_zero _ hplen0, by omega⟩)]
          have hle2 : (rlpEncodeList its).length ≤
              (rlpEncodeList its ++ rlpEncodeList rest).length := by simp
          rw [if_pos hle2, List.take_left, List.drop_left]
          have hinner_len : (rlpEncodeList its).length < fuel := by
            rw [rlpEncode, lenHeader, if_neg h55] at hlen
            simp only [List.length_append, List.cons_append, List.length_cons] at hlen
            omega
          rw [ih its hbits hinner_len]
          simp only [Option.some_bind, hrec, Option.map_some']

/-- Completeness of the byte-string tiers: an accepted header-plus-buffer is
exactly the canonical encoding of the result followed by the tail. -/
theorem rlpDecodeStr_complete (b : Nat) (rest : List Nat) (it : RlpItem)
    (remaining : List Nat) (hrest : ∀ x ∈ rest, x < 256)
    (hdec : rlpDecodeStr b rest = some (it, remaining)) :
    b :: rest = rlpEncode it ++ remaining := by
  simp only [rlpDecodeStr] at hdec
  split_ifs at hdec with h1 h2 h3 h4 h5 h6 h7
  · simp only [Option.some.injEq, Prod.mk.injEq] at hdec
    obtain ⟨rfl, rfl⟩ := hdec
    rw [rlpEncode, if_pos (by simp [h1])]
    simp
  · simp only [Option.some.injEq, Prod.mk.injEq] at hdec
    obtain ⟨rfl, rfl⟩ := hdec
    have hl : (rest.take (b - 0x80)).length = b - 0x80 := by
      simp [List.length_take]
      omega
    rw [rlpEncode, if_neg (by rw [hl]; exact h4), lenHeader, hl,
      if_pos (by omega : b - 0x80 ≤ 55)]
    have hb : 0x80 + (b - 0x80) = b := by omega
    rw [hb]
    simp [List.take_append_drop]
  · simp only [Option.some.injEq, Prod.mk.injEq] at hdec
    obtain ⟨rfl, rfl⟩ := hdec
    have hlol : 1 ≤ b - 0xb7 := by omega
    push_neg at h6
    obtain ⟨hhead, h55⟩ := h6
    have hlb : (rest.take (b - 0xb7)).length = b - 0xb7 := by
      simp [List.length_take]
      omega
    rw [List.length_drop] at h7
    have hpl : ((rest.drop (b - 0xb7)).take (bytesToNat (rest.take (b - 0xb7)))).length
        = bytesToNat (rest.take (b - 0xb7)) := by
      rw [List.length_take, List.length_drop]
      omega
    have hc1 : ¬(((rest.drop (b - 0xb7)).take
          (bytesToNat (rest.take (b - 0xb7)))).length = 1 ∧
        ((rest.drop (b - 0xb7)).take
          (bytesToNat (rest.take (b - 0xb7)))).headD 0 < 0x80) := by
      rw [hpl]
      intro hcon
      omega
    have hc2 : ¬(((rest.drop (b - 0xb7)).take
        (bytesToNat (rest.take (b - 0xb7)))).length ≤ 55) := by
      rw [hpl]
      omega
    rw [rlpEncode, if_neg hc1, lenHeader, if_neg hc2, hpl]
    have hbe : beBytes (bytesToNat (rest.take (b - 0xb7))) = rest.take (b - 0xb7) :=
      beBytes_bytesToNat _ (fun x hx => hrest x (List.mem_of_mem_take hx))
        (Or.inr hhead)
    rw [hbe, hlb]
    have hb : 0x80 + 55 + (b - 0xb7) = b := by omega
    rw [hb]
    simp only [List.cons_append, List.append_assoc, List.cons.injEq, true_and]
    rw [List.take_append_drop, List.take_append_drop]

/-- Completeness of RLP decode: any accepted byte buffer is exactly the
canonical encoding of the decoded item sequence, so every non-canonical
length encoding is rejected. -/
theorem rlpDecodeSeqF_complete (fuel : Nat) :
    ∀ (bs : List Nat) (items : List RlpItem), (∀ x ∈ bs, x < 256) →
      rlpDecodeSeqF fuel bs = some items → bs = rlpEncodeList items := by
  induction fuel with
  | zero =>
    intro bs items _ h
    simp [rlpDecodeSeqF] at h
  | succ fuel ih =>
    intro bs items hlt hdec
    match bs with
    | [] =>
      rw [rlpDecodeSeqF] at hdec
      simp only [Option.some.injEq] at hdec
      subst hdec
      rw [rlpEncodeList]
    | b :: rest =>
      rw [rlpDecodeSeqF] at hdec
      by_cases h1 : b ≤ 0xbf
      · rw [if_pos h1] at hdec
        rcases ho : rlpDecodeStr b rest with _ | ⟨it, remaining⟩
        · rw [ho] at hdec
          simp at hdec
        · rw [ho] at hdec
          simp only [Option.some_bind] at hdec
          rcases hseq : rlpDecodeSeqF fuel remaining with _ | items'
          · rw [hseq] at hdec
            simp at hdec
          · rw [hseq] at hdec
            simp only [Option.map_some', Option.some.injEq] at hdec
            subst hdec
            have henc := rlpDecodeStr_complete b rest it remaining
              (fun x hx => hlt x (by simp [hx])) ho
            have hmem : ∀ x ∈ remaining, x < 256 := by
              intro x hx
              apply hlt
              rw [henc]
              exact List.mem_append_right _ hx
            have htail := ih remaining items' hmem hseq
            rw [rlpEncodeList, ← htail, henc]
      · rw [if_neg h1] at hdec
        by_cases h2 : b ≤ 0xf7
        · rw [if_pos h2] at hdec
          by_cases h3 : b - 0xc0 ≤ rest.length
          · rw [if_pos h3] at hdec
            rcases hin : rlpDecodeSeqF fuel (rest.take (b - 0xc0)) with _ | inner
            · rw [hin] at hdec
              simp at hdec
            · rcases hout : rlpDecodeSeqF fuel (rest.drop (b - 0xc0)) with _ | items'
              · rw [hin, hout] at hdec
                simp at hdec
              · rw [hin, hout] at hdec
                simp only [Option.some_bind, Option.map_some',
                  Option.some.injEq] at hdec
                subst hdec
                have hmemt : ∀ x ∈ rest.take (b - 0xc0), x < 256 := fun x hx =>
                  hlt x (by simp [List.mem_of_mem_take hx])
                have hmemd : ∀ x ∈ rest.drop (b - 0xc0), x < 256 := fun x hx =>
                  hlt x (by simp [List.mem_of_mem_drop hx])
                have hinner := ih _ inner hmemt hin
                have houter := ih _ items' hmemd hout
                have hl : (rest.take (b - 0xc0)).length = b - 0xc0 := by
                  rw [List.length_take]
                  omega
                rw [rlpEncodeList, rlpEncode, lenHeader, ← hinner, ← houter, hl,
                  if_pos (by omega : b - 0xc0 ≤ 55)]
                have hb : 0xc0 + (b - 0xc0) = b := by omega
                rw [hb]
                simp only [List.cons_append, List.nil_append, List.cons.injEq,
                  true_and]
                rw [List.take_append_drop]
          · rw [if_neg h3] at hdec
            simp at hdec
        · rw [if_neg h2] at hdec
          by_cases h3 : b - 0xf7 ≤ rest.length
          · rw [if_pos h3] at hdec
            by_cases h4 : (rest.take (b - 0xf7)).headD 0 = 0 ∨
                bytesToNat (rest.take (b - 0xf7)) ≤ 55
            · rw [if_pos h4] at hdec
              simp at hdec
            · rw [if_neg h4] at hdec
              by_cases h5 : bytesToNat (rest.take (b - 0xf7)) ≤
                  (rest.drop (b - 0xf7)).length
              · rw [if_pos h5] at hdec
                rcases hin : rlpDecodeSeqF fuel
                    ((rest.drop (b - 0xf7)).take (bytesToNat (rest.take (b - 0xf7))))
                    with _ | inner
                · rw [hin] at hdec
                  simp at hdec
                · rcases hout : rlpDecodeSeqF fuel
                      ((rest.drop (b - 0xf7)).drop (bytesToNat (rest.take (b - 0xf7))))
                      with _ | items'
                  · rw [hin, hout] at hdec
                    simp at hdec
                  · rw [hin, hout] at hdec
                    simp only [Option.some_bind, Option.map_some',
                      Option.some.injEq] at hdec
                    subst hdec
                    push_neg at h4
                    obtain ⟨hhead, h55⟩ := h4
                    have hmemt : ∀ x ∈ (rest.drop (b - 0xf7)).take
                        (bytesToNat (rest.take (b - 0xf7))), x < 256 := fun x hx =>
                      hlt x (by
                        simp [List.mem_of_mem_drop (List.mem_of_mem_take hx)])
                    have hmemd : ∀ x ∈ (rest.drop (b - 0xf7)).drop
                        (bytesToNat (rest.take (b - 0xf7))), x < 256 := fun x hx =>
                      hlt x (by
                        simp [List.mem_of_mem_drop (List.mem_of_mem_drop hx)])
                    have hinner := ih _ inner hmemt hin
                    have houter := ih _ items' hmemd hout
                    have hlb : (rest.take (b - 0xf7)).length = b - 0xf7 := by
                      rw [List.length_take]
                      omega
                    have hpl : ((rest.drop (b - 0xf7)).take
                        (bytesToNat (rest.take (b - 0xf7)))).length =
                        bytesToNat (rest.take (b - 0xf7)) := by
                      rw [List.length_take, List.length_drop]
                      rw [List.length_drop] at h5
                      omega
                    rw [rlpEncodeList, rlpEncode, lenHeader, ← hinner, ← houter,
                      hpl, if_neg (by omega : ¬bytesToNat (rest.take (b - 0xf7)) ≤ 55)]
                    have hbe : beBytes (bytesToNat (rest.take (b - 0xf7))) =
                        rest.take (b - 0xf7) :=
                      beBytes_bytesToNat _
                        (fun x hx => hlt x (by simp [List.mem_of_mem_take hx]))
                        (Or.inr hhead)
                    rw [hbe, hlb]
                    have hb : 0xc0 + 55 + (b - 0xf7) = b := by omega
                    rw [hb]
                    simp only [List.cons_append, List.nil_append, List.append_assoc,
                      List.cons.injEq, true_and]
                    rw [List.take_append_drop, List.take_append_drop]
              · rw [if_neg h5] at hdec
                simp at hdec
          · rw [if_neg h3] at hdec
            simp at hdec

theorem rlpEncodeList_singleton (it : RlpItem) :
    rlpEncodeList [it] = rlpEncode it := by
  rw [rlpEncodeList, rlpEncodeList, List.append_nil]

/-- Full-buffer round trip for a single bounded item. -/
theorem rlpDecode_rlpEncode (it : RlpItem) (hb : rlpBoundedB it = true) :
    rlpDecode (rlpEncode it) = some it := by
  have hbl : rlpBoundedListB [it] = true := by
    rw [rlpBoundedListB, rlpBoundedListB, hb]
    rfl
  have hs := rlpDecodeSeqF_encodeList ((rlpEncode it).length + 1) [it] hbl
    (by rw [rlpEncodeList_singleton]; omega)
  rw [rlpEncodeList_singleton] at hs
  unfold rlpDecode
  rw [hs]

/-- Full-buffer decode accepts only the canonical encoding of its result. -/
theorem rlpDecode_canonical (bs : List Nat) (it : RlpItem)
    (hlt : ∀ x ∈ bs, x < 256) (hdec : rlpDecode bs = some it) :
    bs = rlpEncode it := by
  unfold rlpDecode at hdec
  rcases hseq : rlpDecodeSeqF (bs.length + 1) bs with _ | items
  · rw [hseq] at hdec
    simp at hdec
  · rw [hseq] at hdec
    have := rlpDecodeSeqF_complete (bs.length + 1) bs items hlt hseq
    match items, hdec with
    | [it'], hdec =>
      simp only [Option.some.injEq] at hdec
      subst hdec
      rw [this, rlpEncodeList_singleton]

/-- C5: for every RlpItem tree (byte strings and nested lists, including the
empty byte string, the empty list, and zero), RLP-decoding the RLP-encoding
of the tree returns the original tree; and RLP decode rejects any input that
uses a non-canonical (non-minimal) length encoding, failing with
`InvalidRlpDataError` (modelled as `none`): every accepted buffer is exactly
the canonical encoding of its result, and the two concrete non-minimal
spellings of `0x05` and of a one-byte-long string are rejected. -/
theorem c5_rlp_roundtrip_and_canonicity :
    (∀ it : RlpItem, rlpBoundedB it = true →
      rlpDecode (rlpEncode it) = some it) ∧
    (∀ (bs : List Nat) (it : RlpItem), (∀ x ∈ bs, x < 256) →
      rlpDecode bs = some it → bs = rlpEncode it) ∧
    rlpDecode [0x81, 0x05] = none ∧ rlpDecode [0xb8, 0x01, 0x99] = none :=
  ⟨rlpDecode_rlpEncode, rlpDecode_canonical, rfl, rfl⟩

/-- Concrete instance of C5: a tree holding the empty byte string, the empty
list, a zero byte and nesting round-trips, and an accepted input is its
result's canonical encoding. -/
theorem c5_rlp_roundtrip_witness :
    (rlpBoundedB (RlpItem.list [RlpItem.bytes [], RlpItem.list [],
        RlpItem.bytes [0], RlpItem.list [RlpItem.bytes [1, 2]]]) = true ∧
      rlpDecode (rlpEncode (RlpItem.list [RlpItem.bytes [], RlpItem.list [],
        RlpItem.bytes [0], RlpItem.list [RlpItem.bytes [1, 2]]])) =
        some (RlpItem.list [RlpItem.bytes [], RlpItem.list [],
          RlpItem.bytes [0], RlpItem.list [RlpItem.bytes [1, 2]]])) ∧
    ((∀ x ∈ [(5 : Nat)], x < 256) ∧
      rlpDecode [5] = some (RlpItem.bytes [5]) ∧
      [(5 : Nat)] = rlpEncode (RlpItem.bytes [5])) :=
  ⟨⟨by simp [rlpBoundedB, rlpBoundedListB, rlpEncodeList, rlpEncode, lenHeader],
    c5_rlp_roundtrip_and_canonicity.1 _
      (by simp [rlpBoundedB, rlpBoundedListB, rlpEncodeList, rlpEncode, lenHeader])⟩,
   by decide,
   rfl,
   c5_rlp_roundtrip_and_canonicity.2.1 [5] (RlpItem.bytes [5]) (by decide) rfl⟩

/-- C6: for every sender address and nonce, the CREATE contract address
equals the last 20 bytes of keccak256 of the RLP encoding of the two-element
list `[sender_address, nonce]`, with the nonce reduced to its minimal
big-endian form (all leading zero bytes stripped, so nonce 0 encodes as the
empty byte string) before RLP encoding. -/
theorem c6_create_address (keccak : List Nat → List Nat)
    (hkec : ∀ x, (keccak x).length = 32) (sender : List Nat) (nonce : Nat) :
    getCreateAddress keccak sender nonce =
      lastBytes 20
        (keccak (rlpEncode (.list [.bytes sender, .bytes (beBytes nonce)]))) := by
  simp only [getCreateAddress, lastBytes]
  have hnb : (if (toBytesNum nonce).headD 0 = 0 then [] else toBytesNum nonce) =
      beBytes nonce := by
    by_cases h : nonce = 0
    · subst h
      rw [toBytesNum, beBytes_zero]
      simp
    · rw [toBytesNum, if_neg h]
      rw [if_neg (beBytes_head_ne_zero nonce h)]
  rw [hnb, hkec]

/-- Concrete instance of C6 at a 20-byte sender, nonce 0 and a fixed-output
stand-in for the hash. -/
theorem c6_create_address_witness :
    (∀ x, ((fun _ : List Nat => List.range 32) x).length = 32) ∧
    getCreateAddress (fun _ : List Nat => List.range 32)
        (List.replicate 20 0xab) 0 =
      lastBytes 20 ((fun _ : List Nat => List.range 32)
        (rlpEncode (.list [.bytes (List.replicate 20 0xab),
          .bytes (beBytes 0)]))) :=
  ⟨fun _ => by simp,
   c6_create_address _ (fun _ => by simp) (List.replicate 20 0xab) 0⟩

theorem takeWhile_append_stop (p : Char → Bool) (l r : List Char) (c0 : Char)
    (hl : ∀ c ∈ l, p c = true) (hc : p c0 = false) :
    (l ++ c0 :: r).takeWhile p = l := by
  induction l with
  | nil => simp [List.takeWhile_cons, hc]
  | cons a l ih =>
    have ha : p a = true := hl a (by simp)
    simp only [List.cons_append, List.takeWhile_cons, ha]
    rw [ih (fun c hcm => hl c (by simp [hcm]))]
    simp

theorem dropWhile_append_stop (p : Char → Bool) (l r : List Char) (c0 : Char)
    (hl : ∀ c ∈ l, p c = true) (hc : p c0 = false) :
    (l ++ c0 :: r).dropWhile p = c0 :: r := by
  induction l with
  | nil => simp [List.dropWhile_cons, hc]
  | cons a l ih =>
    have ha : p a = true := hl a (by simp)
    simp only [List.cons_append, List.dropWhile_cons, ha]
    exact ih (fun c hcm => hl c (by simp [hcm]))

theorem intercalate_cons_cons (sep x y : List Char) (t : List (List Char)) :
    List.intercalate sep (x :: y :: t) = x ++ sep ++ List.intercalate sep (y :: t) := by
  simp [List.intercalate, List.intersperse_cons₂]

theorem mem_intercalate_imp {sep : List Char} {ls : List (List Char)} {c : Char}
    (h : c ∈ List.intercalate sep ls) : c ∈ sep ∨ ∃ l ∈ ls, c ∈ l := by
  induction ls with
  | nil => simp [List.intercalate] at h
  | cons x t ih =>
    match t with
    | [] =>
      simp [List.intercalate] at h
      exact Or.inr ⟨x, by simp, h⟩
    | y :: t' =>
      rw [intercalate_cons_cons] at h
      simp only [List.append_assoc, List.mem_append] at h
      rcases h with h | h | h
      · exact Or.inr ⟨x, by simp, h⟩
      · exact Or.inl h
      · rcases ih h with h | ⟨l, hl, hcl⟩
        · exact Or.inl h
        · exact Or.inr ⟨l, by simp [hl], hcl⟩

theorem extractName_render (name inner : List Char)
    (hname : ∀ c ∈ name, c ≠ '(') :
    extractFunctionName (name ++ ['('] ++ inner ++ [')']) = name := by
  have hshape : name ++ ['('] ++ inner ++ [')'] =
      name ++ '(' :: (inner ++ [')']) := by simp
  rw [hshape]
  unfold extractFunctionName
  apply takeWhile_append_stop
  · intro c hc
    simp [hname c hc]
  · simp

theorem extractInner_render (name inner : List Char)
    (hname : ∀ c ∈ name, c ≠ '(') (hinner : ∀ c ∈ inner, c ≠ ')') :
    extractInner (name ++ ['('] ++ inner ++ [')']) = inner := by
  have hshape : name ++ ['('] ++ inner ++ [')'] =
      name ++ '(' :: (inner ++ [')']) := by simp
  rw [hshape]
  unfold extractInner
  rw [dropWhile_append_stop _ name _ '(' (fun c hc => by simp [hname c hc])
    (by simp)]
  simp only [List.drop_succ_cons, List.drop_zero]
  have hshape2 : inner ++ [')'] = inner ++ ')' :: [] := by simp
  rw [hshape2]
  apply takeWhile_append_stop
  · intro c hc
    simp [hinner c hc]
  · simp

theorem dropWhile_space_replicate (pre : Nat) (rest : List Char) :
    (List.replicate pre ' ' ++ rest).dropWhile (fun c => c == ' ') =
      rest.dropWhile (fun c => c == ' ') := by
  induction pre with
  | zero => simp
  | succ pre ih => simpa [List.replicate_succ, List.dropWhile_cons] using ih

theorem paramType_good (ty : List Char) (hty : goodType ty) : paramType ty = ty := by
  obtain ⟨hne, hc⟩ := hty
  unfold paramType
  match ty, hne with
  | c :: rest, _ =>
    have hcs : (c == ' ') = false := by
      simp [(hc c (by simp)).1]
    rw [List.dropWhile_cons, hcs]
    simp only [Bool.false_eq_true, if_false]
    rw [List.takeWhile_eq_self_iff.mpr]
    intro x hx
    simp [(hc x hx).1]

theorem paramType_decorated (pre : Nat) (ty suf : List Char) (hty : goodType ty)
    (hsuf : goodSuffix suf) :
    paramType (List.replicate pre ' ' ++ ty ++ suf) = ty := by
  obtain ⟨hne, hc⟩ := hty
  unfold paramType
  rw [List.append_assoc, dropWhile_space_replicate]
  match ty, hne with
  | c :: rest, _ =>
    have hcs : (c == ' ') = false := by
      simp [(hc c (by simp)).1]
    rw [List.cons_append, List.dropWhile_cons, hcs]
    simp only [Bool.false_eq_true, if_false]
    rw [← List.cons_append]
    match suf, hsuf with
    | [], _ =>
      rw [List.append_nil, List.takeWhile_eq_self_iff.mpr]
      intro x hx
      simp [(hc x hx).1]
    | s :: suf', hsuf =>
      have hs : s = ' ' := by
        rcases hsuf.1 with h | h
        · simp at h
        · simpa using h
      subst hs
      apply takeWhile_append_stop
      · intro x hx
        simp [(hc x hx).1]
      · simp

/-- C4: the function selector / event topic is computed from the canonical
signature only.  For every well-formed signature, `hashFunction` applied to
the spelling with parameter names and extra whitespace and to the canonical
spelling `name(type,type,...)` both hash exactly the canonical signature, so
the two spellings yield equal selectors under any hash function. -/
theorem c4_selector_canonicalization {α : Type} (hashF : List Char → α)
    (name : List Char) (ps : List (Nat × List Char × List Char))
    (hname : ∀ c ∈ name, c ≠ '(') (hps : ps ≠ [])
    (hty : ∀ p ∈ ps, goodType p.2.1) (hsuf : ∀ p ∈ ps, goodSuffix p.2.2) :
    hashFunction hashF (renderDecorated name ps) =
      hashF (renderCanonical name (ps.map (fun p => p.2.1))) ∧
    hashFunction hashF (renderCanonical name (ps.map (fun p => p.2.1))) =
      hashF (renderCanonical name (ps.map (fun p => p.2.1))) := by
  have hparen : ∀ inner : List Char,
      hasParens (name ++ ['('] ++ inner ++ [')']) = true := by
    intro inner
    unfold hasParens
    refine List.any_eq_true.mpr ⟨'(', by simp, by simp⟩
  have hdecinner : ∀ c ∈ List.intercalate [','] (ps.map renderParam),
      c ≠ ')' := by
    intro c hcm
    rcases mem_intercalate_imp hcm with h | ⟨l, hl, hcl⟩
    · simp only [List.mem_singleton] at h
      subst h
      decide
    · obtain ⟨p, hp, rfl⟩ := List.mem_map.mp hl
      unfold renderParam at hcl
      simp only [List.mem_append, List.mem_replicate] at hcl
      rcases hcl with (h | h) | h
      · rw [h.2]
        decide
      · exact ((hty p hp).2 c h).2.2.2
      · exact ((hsuf p hp).2 c h).2.2
  have htyinner : ∀ c ∈ List.intercalate [','] (ps.map (fun p => p.2.1)),
      c ≠ ')' := by
    intro c hcm
    rcases mem_intercalate_imp hcm with h | ⟨l, hl, hcl⟩
    · simp only [List.mem_singleton] at h
      subst h
      decide
    · obtain ⟨p, hp, rfl⟩ := List.mem_map.mp hl
      exact ((hty p hp).2 c hcl).2.2.2
  have hsplit_d : (List.intercalate [','] (ps.map renderParam)).splitOn ',' =
      ps.map renderParam := by
    apply List.splitOn_intercalate
    · intro l hl hmem
      obtain ⟨p, hp, rfl⟩ := List.mem_map.mp hl
      unfold renderParam at hmem
      simp only [List.mem_append, List.mem_replicate] at hmem
      rcases hmem with (h | h) | h
      · exact absurd h.2.symm (by decide)
      · exact ((hty p hp).2 _ h).2.1 rfl
      · exact ((hsuf p hp).2 _ h).1 rfl
    · simpa using hps
  have hsplit_c : (List.intercalate [','] (ps.map (fun p => p.2.1))).splitOn ',' =
      ps.map (fun p => p.2.1) := by
    apply List.splitOn_intercalate
    · intro l hl hmem
      obtain ⟨p, hp, rfl⟩ := List.mem_map.mp hl
      exact ((hty p hp).2 _ hmem).2.1 rfl
    · simpa using hps
  have hmap_d : (ps.map renderParam).map paramType = ps.map (fun p => p.2.1) := by
    rw [List.map_map]
    apply List.map_congr_left
    intro p hp
    exact paramType_decorated p.1 p.2.1 p.2.2 (hty p hp) (hsuf p hp)
  have hmap_c : (ps.map (fun p => p.2.1)).map paramType =
      ps.map (fun p => p.2.1) := by
    rw [List.map_map]
    apply List.map_congr_left
    intro p hp
    exact paramType_good p.2.1 (hty p hp)
  constructor
  · show hashFunction hashF
      (name ++ ['('] ++ List.intercalate [','] (ps.map renderParam) ++ [')']) = _
    unfold hashFunction
    rw [if_pos (hparen _)]
    unfold extractFunctionParams
    rw [extractName_render name _ hname,
      extractInner_render name _ hname hdecinner, hsplit_d, hmap_d]
    rfl
  · show hashFunction hashF
      (name ++ ['('] ++
        List.intercalate [','] (ps.map (fun p => p.2.1)) ++ [')']) = _
    unfold hashFunction
    rw [if_pos (hparen _)]
    unfold extractFunctionParams
    rw [extractName_render name _ hname,
      extractInner_render name _ hname htyinner, hsplit_c, hmap_c]
    rfl

/-- Concrete instance of C4: the two spellings of `transfer(address,uint256)`
yield equal selectors. -/
theorem c4_selector_witness :
    ((∀ c ∈ "transfer".toList, c ≠ '(') ∧
      ([((0 : Nat), "address".toList, " to".toList),
        ((0 : Nat), "uint256".toList, " amount".toList)] ≠
        ([] : List (Nat × List Char × List Char))) ∧
      (∀ p ∈ [((0 : Nat), "address".toList, " to".toList),
        ((0 : Nat), "uint256".toList, " amount".toList)], goodType p.2.1) ∧
      (∀ p ∈ [((0 : Nat), "address".toList, " to".toList),
        ((0 : Nat), "uint256".toList, " amount".toList)], goodSuffix p.2.2)) ∧
    hashFunction (fun l : List Char => l)
        (renderDecorated "transfer".toList
          [((0 : Nat), "address".toList, " to".toList),
           ((0 : Nat), "uint256".toList, " amount".toList)]) =
      (fun l : List Char => l)
        (renderCanonical "transfer".toList
          [ "address".toList, "uint256".toList]) := by
  refine ⟨⟨by decide, by decide, by decide, by decide⟩, ?_⟩
  exact (c4_selector_canonicalization (fun l : List Char => l) "transfer".toList
    [((0 : Nat), "address".toList, " to".toList),
     ((0 : Nat), "uint256".toList, " amount".toList)]
    (by decide) (by decide) (by decide) (by decide)).1

theorem buildCalls_true {V : Type} (cs : List (MContract V)) :
    buildCalls true cs = .ok (cs.map buildCallAF) := by
  induction cs with
  | nil => rfl
  | cons c cs ih =>
    unfold buildCalls at ih ⊢
    rw [List.mapM_cons, ih]
    cases he : c.enc with
    | some d =>
      simp only [buildCall, buildCallAF, he, List.map_cons]
      rfl
    | none =>
      simp only [buildCall, buildCallAF, he, List.map_cons, if_pos rfl]
      rfl

theorem stepResult_true {V : Type} (c : MContract V) (k : MCall) (r : MAggRes) :
    stepResult true c k r = .ok (demuxOne c k r) := by
  unfold stepResult demuxOne
  match callOutcome c k r with
  | .ok v => rfl
  | .error e => rfl

theorem multicallResults_true {V : Type} (cs : List (MContract V))
    (ks : List MCall) (rs : List MAggRes) :
    multicallResults true cs ks rs = .ok (map3 demuxOne cs ks rs) := by
  induction cs generalizing ks rs with
  | nil =>
    match ks, rs with
    | [], _ => rfl
    | _ :: _, [] => rfl
    | _ :: _, _ :: _ => rfl
  | cons c cs ih =>
    match ks, rs with
    | [], _ => rfl
    | _ :: _, [] => rfl
    | k :: ks, r :: rs =>
      unfold multicallResults map3
      rw [stepResult_true, ih]
      rfl

theorem multicall_true {V : Type} (cs : List (MContract V))
    (executor : List MCall → List MAggRes) :
    multicall true cs executor =
      .ok (map3 demuxOne cs (cs.map buildCallAF)
        (executor (cs.map buildCallAF))) := by
  unfold multicall
  rw [buildCalls_true]
  show multicallResults true cs (cs.map buildCallAF)
    (executor (cs.map buildCallAF)) = _
  exact multicallResults_true _ _ _

theorem map3_getElem {α β γ δ : Type} (f : α → β → γ → δ)
    (as : List α) (bs : List β) (cs : List γ) (i : Nat)
    (ha : i < as.length) (hb : i < bs.length) (hc : i < cs.length) :
    (map3 f as bs cs).get? i = some (f (as.get ⟨i, ha⟩) (bs.get ⟨i, hb⟩)
      (cs.get ⟨i, hc⟩)) := by
  induction as generalizing bs cs i with
  | nil => simp at ha
  | cons a as ih =>
    match bs, cs with
    | b :: bs, c :: cs =>
      match i with
      | 0 => rfl
      | i + 1 =>
        unfold map3
        rw [List.get?_cons_succ]
        exact ih bs cs i (by simpa using ha) (by simpa using hb) (by simpa using hc)

/-- Shared positional fact: under `allowFailure`, entry `i` of the multicall
output is the demultiplexing of contract `i`, call `i` and response `i`. -/
theorem multicall_get {V : Type} (cs : List (MContract V))
    (executor : List MCall → List MAggRes) (out : List (MResult V))
    (hout : multicall true cs executor = .ok out) (i : Nat)
    (hi : i < cs.length)
    (hr : i < (executor (cs.map buildCallAF)).length) :
    out.get? i = some (demuxOne (cs.get ⟨i, hi⟩)
      ((cs.map buildCallAF).get ⟨i, by simpa using hi⟩)
      ((executor (cs.map buildCallAF)).get ⟨i, hr⟩)) := by
  rw [multicall_true] at hout
  have hout' := Except.ok.inj hout
  rw [← hout']
  exact map3_getElem demuxOne cs (cs.map buildCallAF)
    (executor (cs.map buildCallAF)) i hi (by simpa using hi) hr

theorem get_map_buildCallAF {V : Type} (cs : List (MContract V)) (i : Nat)
    (hi : i < cs.length) :
    (cs.map buildCallAF).get ⟨i, by simpa using hi⟩ =
      buildCallAF (cs.get ⟨i, hi⟩) := by
  simp [List.get_eq_getElem, List.getElem_map]

/-- C2: within one flushed batch, the result delivered at position `i`
corresponds to the request registered at position `i`: for every contract
list whose aggregate executor response lists per-call outcomes in order,
caller `i` receives exactly the decoded outcome `i`, in original
registration order. -/
theorem c2_multicall_ordering {V : Type} (cs : List (MContract V))
    (executor : List MCall → List MAggRes) (out : List (MResult V))
    (hout : multicall true cs executor = .ok out) (i : Nat)
    (hi : i < cs.length)
    (hr : i < (executor (cs.map buildCallAF)).length) :
    out.get? i = some (demuxOne (cs.get ⟨i, hi⟩)
      (buildCallAF (cs.get ⟨i, hi⟩))
      ((executor (cs.map buildCallAF)).get ⟨i, hr⟩)) := by
  rw [multicall_get cs executor out hout i hi hr, get_map_buildCallAF]

/-- Concrete instance of C2: three registered calls with executor outcomes
`[success, failure, success]`; exactly the second caller observes a failure,
the others their decoded values, in registration order. -/
theorem c2_multicall_ordering_witness :
    (multicall true
        [⟨10, some [1], fun _ => some (7 : Nat)⟩,
         ⟨11, some [2], fun _ => some 8⟩,
         ⟨12, some [3], fun _ => some 9⟩]
        (fun _ => [⟨true, [100]⟩, ⟨false, [66]⟩, ⟨true, [101]⟩]) =
      .ok [.success 7, .failure (.wrapped (.raw [66])), .success 9]) ∧
    (1 < 3) ∧
    ([MResult.success 7, MResult.failure (.wrapped (.raw [66])),
        MResult.success (9 : Nat)].get? 1 =
      some (demuxOne
        ([⟨10, some [1], fun _ => some (7 : Nat)⟩,
          ⟨11, some [2], fun _ => some 8⟩,
          ⟨12, some [3], fun _ => some 9⟩].get ⟨1, by decide⟩)
        (buildCallAF ([⟨10, some [1], fun _ => some (7 : Nat)⟩,
          ⟨11, some [2], fun _ => some 8⟩,
          ⟨12, some [3], fun _ => some 9⟩].get ⟨1, by decide⟩))
        (((fun _ => [⟨true, [100]⟩, ⟨false, [66]⟩, ⟨true, [101]⟩] :
            List MCall → List MAggRes)
          ([⟨10, some [1], fun _ => some (7 : Nat)⟩,
            ⟨11, some [2], fun _ => some 8⟩,
            ⟨12, some [3], fun _ => some 9⟩].map buildCallAF)).get
            ⟨1, by decide⟩))) :=
  ⟨rfl, by decide,
   c2_multicall_ordering
     [⟨10, some [1], fun _ => some (7 : Nat)⟩,
      ⟨11, some [2], fun _ => some 8⟩,
      ⟨12, some [3], fun _ => some 9⟩]
     (fun _ => [⟨true, [100]⟩, ⟨false, [66]⟩, ⟨true, [101]⟩])
     [.success 7, .failure (.wrapped (.raw [66])), .success 9]
     rfl 1 (by decide) (by decide)⟩

/-- C3: in an aggregated batch with failure allowed, each call's outcome is
independent: a call whose aggregate entry is marked failed yields a failure
result (never a sibling's), and a successful, decodable call yields its
decoded value — the statement at position `i` depends only on position `i`'s
contract, call data and response. -/
theorem c3_multicall_independence {V : Type} (cs : List (MContract V))
    (executor : List MCall → List MAggRes) (out : List (MResult V))
    (hout : multicall true cs executor = .ok out) (i : Nat)
    (hi : i < cs.length)
    (hr : i < (executor (cs.map buildCallAF)).length) :
    (((executor (cs.map buildCallAF)).get ⟨i, hr⟩).success = false →
      (out.get? i = some (.failure (.wrapped
          (.raw ((executor (cs.map buildCallAF)).get ⟨i, hr⟩).returnData))) ∨
        out.get? i = some (.failure (.wrapped .zeroData)))) ∧
    (∀ (d : List Nat) (v : V),
      ((executor (cs.map buildCallAF)).get ⟨i, hr⟩).success = true →
      (cs.get ⟨i, hi⟩).enc = some d → d ≠ [] →
      (cs.get ⟨i, hi⟩).dec
        ((executor (cs.map buildCallAF)).get ⟨i, hr⟩).returnData = some v →
      out.get? i = some (.success v)) := by
  have hget := multicall_get cs executor out hout i hi hr
  rw [get_map_buildCallAF] at hget
  constructor
  · intro hfail
    rw [hget]
    unfold demuxOne callOutcome
    by_cases hcd : (buildCallAF (cs.get ⟨i, hi⟩)).callData = []
    · rw [if_pos hcd]
      right
      rfl
    · rw [if_neg hcd, if_pos hfail]
      left
      rfl
  · intro d v hsucc henc hd hdec
    rw [hget]
    unfold demuxOne callOutcome
    have hcd : (buildCallAF (cs.get ⟨i, hi⟩)).callData = d := by
      unfold buildCallAF
      rw [henc]
    rw [hcd, if_neg hd, if_neg (by rw [hsucc]; simp), hdec]

/-- Concrete instance of C3 at the failed position of a mixed batch. -/
theorem c3_multicall_independence_witness :
    (multicall true
        ([⟨10, some [1], fun _ => some 7⟩,
          ⟨11, some [2], fun _ => some 8⟩,
          ⟨12, some [3], fun _ => some 9⟩] : List (MContract Nat))
        (fun _ => [⟨true, [100]⟩, ⟨false, [66]⟩, ⟨true, [101]⟩]) =
      .ok [.success 7, .failure (.wrapped (.raw [66])), .success 9]) ∧
    (1 < 3) ∧
    ([MResult.success 7, MResult.failure (.wrapped (.raw [66])),
        MResult.success (9 : Nat)].get? 1 =
      some (.failure (.wrapped (.raw [66])))) := by
  refine ⟨rfl, by decide, ?_⟩
  have h := (c3_multicall_independence
    ([⟨10, some [1], fun _ => some 7⟩,
      ⟨11, some [2], fun _ => some 8⟩,
      ⟨12, some [3], fun _ => some 9⟩] : List (MContract Nat))
    (fun _ => [⟨true, [100]⟩, ⟨false, [66]⟩, ⟨true, [101]⟩])
    [.success 7, .failure (.wrapped (.raw [66])), .success 9]
    rfl 1 (by decide) (by decide)).1 rfl
  rcases h with h | h
  · exact h
  · simp at h

/-- C9: with `allowFailure` at its default `true`, a contract whose calldata
encoding throws still occupies its position in the aggregate call with the
`0x` placeholder, its result is a failure raised from the zero-data decode
error and wrapped as a contract error, and every other position's result is
unaffected. -/
theorem c9_multicall_encode_failure {V : Type} (cs : List (MContract V))
    (executor : List MCall → List MAggRes) (out : List (MResult V))
    (hout : multicall true cs executor = .ok out) (k : Nat)
    (hk : k < cs.length) (henc : (cs.get ⟨k, hk⟩).enc = none) :
    ((cs.map buildCallAF).get ⟨k, by simpa using hk⟩ =
      { allowFailure := true, callData := [],
        target := (cs.get ⟨k, hk⟩).target }) ∧
    (k < (executor (cs.map buildCallAF)).length →
      out.get? k = some (.failure (.wrapped .zeroData))) ∧
    (∀ (j : Nat) (hj : j < cs.length)
        (hrj : j < (executor (cs.map buildCallAF)).length)
        (d : List Nat) (v : V),
      (cs.get ⟨j, hj⟩).enc = some d → d ≠ [] →
      ((executor (cs.map buildCallAF)).get ⟨j, hrj⟩).success = true →
      (cs.get ⟨j, hj⟩).dec
        ((executor (cs.map buildCallAF)).get ⟨j, hrj⟩).returnData = some v →
      out.get? j = some (.success v)) := by
  refine ⟨?_, ?_, ?_⟩
  · rw [get_map_buildCallAF]
    unfold buildCallAF
    rw [henc]
  · intro hr
    have hget := multicall_get cs executor out hout k hk hr
    rw [get_map_buildCallAF] at hget
    rw [hget]
    unfold demuxOne callOutcome
    have hcd : (buildCallAF (cs.get ⟨k, hk⟩)).callData = [] := by
      unfold buildCallAF
      rw [henc]
    rw [if_pos hcd]
  · intro j hj hrj d v hencj hd hsucc hdec
    have hget := multicall_get cs executor out hout j hj hrj
    rw [get_map_buildCallAF] at hget
    rw [hget]
    unfold demuxOne callOutcome
    have hcd : (buildCallAF (cs.get ⟨j, hj⟩)).callData = d := by
      unfold buildCallAF
      rw [hencj]
    rw [hcd, if_neg hd, if_neg (by rw [hsucc]; simp), hdec]

/-- Concrete instance of C9: the middle contract's encoding throws; it keeps
its slot with placeholder calldata, fails with the wrapped zero-data error,
and its siblings decode normally. -/
theorem c9_multicall_encode_failure_witness :
    (multicall true
        ([⟨10, some [1], fun _ => some 7⟩,
          ⟨11, none, fun _ => some 8⟩,
          ⟨12, some [3], fun _ => some 9⟩] : List (MContract Nat))
        (fun _ => [⟨true, [100]⟩, ⟨true, [66]⟩, ⟨true, [101]⟩]) =
      .ok [.success 7, .failure (.wrapped .zeroData), .success 9]) ∧
    (1 < 3) ∧
    ((([⟨10, some [1], fun _ => some 7⟩,
        ⟨11, none, fun _ => some 8⟩,
        ⟨12, some [3], fun _ => some 9⟩] : List (MContract Nat)).get
        ⟨1, by decide⟩).enc = none) ∧
    ((([⟨10, some [1], fun _ => some 7⟩,
        ⟨11, none, fun _ => some 8⟩,
        ⟨12, some [3], fun _ => some 9⟩] : List (MContract Nat)).map
        buildCallAF).get ⟨1, by decide⟩ =
      { allowFailure := true, callData := [], target := 11 }) := by
  refine ⟨rfl, by decide, rfl, ?_⟩
  exact (c9_multicall_encode_failure
    ([⟨10, some [1], fun _ => some 7⟩,
      ⟨11, none, fun _ => some 8⟩,
      ⟨12, some [3], fun _ => some 9⟩] : List (MContract Nat))
    (fun _ => [⟨true, [100]⟩, ⟨true, [66]⟩, ⟨true, [101]⟩])
    [.success 7, .failure (.wrapped .zeroData), .success 9]
    rfl 1 (by decide) rfl).1

/-- C10: the call action maps an empty on-chain response to an absent value
rather than an error — whichever path is taken (direct `eth_call` or the
multicall scheduler), a successful raw response of exactly `0x` yields
`{ data: undefined }` (here `.ok none`), never `0x` itself or a decode
failure. -/
theorem c10_call_empty_response (aggSig : List Nat) (batch : Bool)
    (data : Option (List Nat)) (toAddr : Option Nat) (otherProps : Bool) :
    callAction aggSig batch data toAddr otherProps (true, []) [] = .ok none := by
  unfold callAction
  by_cases h : (batch && shouldPerformMulticall aggSig data toAddr otherProps) = true
  · rw [if_pos h]
    rfl
  · rw [if_neg h]
    rfl

theorem foldl_hexSize_base (args : List (List Nat)) (acc : Nat) :
    args.foldl (fun size d => size + 2 * d.length) acc = acc + hexSize args := by
  induction args generalizing acc with
  | nil => simp [hexSize]
  | cons x args ih =>
    simp only [List.foldl_cons]
    rw [ih]
    have h2 : hexSize (x :: args) = 2 * x.length + hexSize args := by
      show (x :: args).foldl (fun size d => size + 2 * d.length) 0 =
        2 * x.length + hexSize args
      rw [List.foldl_cons, ih (0 + 2 * x.length)]
      omega
    rw [h2]
    omega

theorem foldl_hexSize (args : List (List Nat)) (acc : Nat) :
    args.foldl (fun size d => size + ((2 * d.length + 2) - 2)) acc =
      acc + hexSize args := by
  have hfun : (fun (size : Nat) (d : List Nat) =>
      size + ((2 * d.length + 2) - 2)) = fun size d => size + 2 * d.length := by
    funext size d
    omega
  rw [hfun]
  exact foldl_hexSize_base args acc

theorem shouldSplitBatch_iff (batchSize : Nat) (args : List (List Nat)) :
    shouldSplitBatch batchSize args = true ↔ hexSize args > batchSize * 2 := by
  unfold shouldSplitBatch
  rw [decide_eq_true_iff]
  rw [foldl_hexSize]
  omega

theorem hexSize_append (a b : List (List Nat)) :
    hexSize (a ++ b) = hexSize a + hexSize b := by
  unfold hexSize
  rw [List.foldl_append]
  exact foldl_hexSize_base b _

/-- All flushed buckets concatenate to the registrations, in order. -/
theorem runSched_flatten {R : Type} (split : List R → Bool) (regs : List R) :
    ∀ bucket, (runSched split regs bucket).flatten = bucket ++ regs := by
  induction regs with
  | nil =>
    intro bucket
    unfold runSched
    by_cases h : bucket.isEmpty
    · rw [if_pos h]
      simp [List.isEmpty_iff.mp h]
    · rw [if_neg h]
      simp
  | cons r rest ih =>
    intro bucket
    unfold runSched
    by_cases h : split (bucket ++ [r]) = true
    · rw [if_pos h]
      by_cases hb : bucket.isEmpty
      · rw [if_pos hb]
        simp [List.isEmpty_iff.mp hb, ih [r]]
      · rw [if_neg hb]
        simp [ih [r]]
    · rw [if_neg h]
      rw [ih (bucket ++ [r])]
      simp

/-- Every flushed bucket respects the byte budget, provided every individual
call does and the running bucket does. -/
theorem runSched_budget (batchSize : Nat) (regs : List (List Nat)) :
    ∀ bucket, (∀ r ∈ regs, 2 * r.length ≤ batchSize * 2) →
      hexSize bucket ≤ batchSize * 2 →
      ∀ b ∈ runSched (shouldSplitBatch batchSize) regs bucket,
        hexSize b ≤ batchSize * 2 := by
  induction regs with
  | nil =>
    intro bucket _ hbucket b hb
    unfold runSched at hb
    by_cases h : bucket.isEmpty
    · rw [if_pos h] at hb
      simp at hb
    · rw [if_neg h] at hb
      simp at hb
      rw [hb]
      exact hbucket
  | cons r rest ih =>
    intro bucket hfit hbucket b hb
    have hr : 2 * r.length ≤ batchSize * 2 := hfit r (by simp)
    have hfit' : ∀ x ∈ rest, 2 * x.length ≤ batchSize * 2 := fun x hx =>
      hfit x (by simp [hx])
    unfold runSched at hb
    by_cases h : shouldSplitBatch batchSize (bucket ++ [r]) = true
    · rw [if_pos h] at hb
      rcases List.mem_append.mp hb with hb | hb
      · by_cases hbv : bucket.isEmpty
        · rw [if_pos hbv] at hb
          simp at hb
        · rw [if_neg hbv] at hb
          simp at hb
          rw [hb]
          exact hbucket
      · exact ih [r] hfit' (by
          unfold hexSize
          simp
          omega) b hb
    · rw [if_neg h] at hb
      have hsize : hexSize (bucket ++ [r]) ≤ batchSize * 2 := by
        have := (not_iff_not.mpr (shouldSplitBatch_iff batchSize (bucket ++ [r]))).mp
          (by simpa using h)
        omega
      exact ih (bucket ++ [r]) hfit' hsize b hb

/-- C7: when the cumulative calldata of calls registered under one
scheduling key exceeds the configured byte budget, the scheduler performs
two separate flush invocations on the executor instead of one, and each
flushed batch respects the byte budget (given that each individual call
fits the budget). -/
theorem c7_split_policy (batchSize : Nat) (regs : List (List Nat))
    (hfit : ∀ r ∈ regs, 2 * r.length ≤ batchSize * 2)
    (hover : hexSize regs > batchSize * 2) :
    (∀ b ∈ runSched (shouldSplitBatch batchSize) regs [],
      hexSize b ≤ batchSize * 2) ∧
    (runSched (shouldSplitBatch batchSize) regs []).flatten = regs ∧
    2 ≤ (runSched (shouldSplitBatch batchSize) regs []).length ∧
    (∀ c1 c2 : List Nat, 2 * c1.length ≤ batchSize * 2 →
      2 * c2.length ≤ batchSize * 2 → hexSize [c1, c2] > batchSize * 2 →
      runSched (shouldSplitBatch batchSize) [c1, c2] [] = [[c1], [c2]]) := by
  have hbudget := runSched_budget batchSize regs [] hfit
    (by unfold hexSize; simp)
  have hflat := runSched_flatten (shouldSplitBatch batchSize) regs []
  simp only [List.nil_append] at hflat
  refine ⟨hbudget, hflat, ?_, ?_⟩
  · match hbs : runSched (shouldSplitBatch batchSize) regs [] with
    | [] =>
      rw [hbs] at hflat
      simp only [List.flatten_nil] at hflat
      rw [← hflat] at hover
      unfold hexSize at hover
      simp at hover
    | [b] =>
      rw [hbs] at hflat
      have hbr : b = regs := by simpa using hflat
      have hble := hbudget b (by rw [hbs]; simp)
      rw [hbr] at hble
      omega
    | b1 :: b2 :: t => simp
  · intro c1 c2 h1 h2 hov2
    have hsize1 : hexSize [c1] = 2 * c1.length := by
      unfold hexSize
      simp
    have hsize2 : hexSize [c1, c2] = 2 * c1.length + 2 * c2.length := by
      unfold hexSize
      simp
    have hs1 : shouldSplitBatch batchSize ([] ++ [c1]) = false := by
      rw [List.nil_append]
      rw [← Bool.not_eq_true]
      rw [shouldSplitBatch_iff]
      omega
    have hs2 : shouldSplitBatch batchSize ([c1] ++ [c2]) = true := by
      rw [shouldSplitBatch_iff]
      have : [c1] ++ [c2] = [c1, c2] := rfl
      rw [this]
      omega
    unfold runSched
    rw [hs1]
    simp only [Bool.false_eq_true, if_false, List.nil_append]
    unfold runSched
    rw [hs2, if_pos rfl]
    rfl

/-- Concrete instance of C7: two calls of 2 bytes each under a 2-byte budget
trigger exactly two flush invocations, each within budget. -/
theorem c7_split_policy_witness :
    (∀ r ∈ [[1, 2], [3, 4]], 2 * List.length r ≤ 2 * 2) ∧
    hexSize [[1, 2], [3, 4]] > 2 * 2 ∧
    2 ≤ (runSched (shouldSplitBatch 2) [[1, 2], [3, 4]] []).length ∧
    runSched (shouldSplitBatch 2) [[1, 2], [3, 4]] [] = [[[1, 2]], [[3, 4]]] :=
  ⟨by decide, by decide,
   (c7_split_policy 2 [[1, 2], [3, 4]] (by decide) (by decide)).2.2.1,
   (c7_split_policy 2 [[1, 2], [3, 4]] (by decide) (by decide)).2.2.2
     [1, 2] [3, 4] (by decide) (by decide) (by decide)⟩

/-- C8: every pending call registered in a scheduler bucket receives exactly
one resolution: the resolution list has exactly one entry per registered
call (also across a whole tick's buckets); if the aggregated executor call
fails outright, every pending call in that bucket resolves with that same
cause; on success, call `i` resolves with outcome `i`. -/
theorem c8_exactly_one_resolution {E A R : Type}
    (exec : List R → Except E (List A)) (bucket : List R) :
    (flushBucket exec bucket).length = bucket.length ∧
    (∀ e, exec bucket = .error e →
      ∀ res ∈ flushBucket exec bucket, res = .error e) ∧
    (∀ results, exec bucket = .ok results → ∀ i, i < bucket.length →
      (flushBucket exec bucket).get? i = some (.ok (results.get? i))) ∧
    (∀ (split : List R → Bool) (regs : List R),
      (schedulerResolve split exec regs).length = regs.length) := by
  refine ⟨?_, ?_, ?_, ?_⟩
  · unfold flushBucket
    match exec bucket with
    | .ok results => simp
    | .error e => simp
  · intro e he res hres
    unfold flushBucket at hres
    rw [he] at hres
    simp at hres
    exact hres.2
  · intro results hok i hi
    unfold flushBucket
    rw [hok]
    rw [List.get?_map, List.get?_range hi]
    rfl
  · intro split regs
    unfold schedulerResolve
    have hlen : ∀ batches : List (List R),
        ((batches.map (flushBucket exec)).flatten).length =
          batches.flatten.length := by
      intro batches
      induction batches with
      | nil => simp
      | cons b bs ih =>
        simp only [List.map_cons, List.flatten_cons, List.length_append, ih]
        congr 1
        unfold flushBucket
        match exec b with
        | .ok results => simp
        | .error e => simp
    rw [hlen, runSched_flatten]
    simp

/-- Concrete instance of C8: a three-call bucket under a failing executor
resolves all three calls with the shared cause, and under a succeeding
executor resolves call 1 with outcome 1. -/
theorem c8_exactly_one_resolution_witness :
    ((flushBucket (fun _ : List Nat => (.error 99 : Except Nat (List Nat)))
        [1, 2, 3]).length = 3) ∧
    ((fun _ : List Nat => (.error 99 : Except Nat (List Nat))) [1, 2, 3] =
      .error 99) ∧
    (∀ res ∈ flushBucket
        (fun _ : List Nat => (.error 99 : Except Nat (List Nat))) [1, 2, 3],
      res = .error 99) ∧
    ((fun _ : List Nat => (.ok [7, 8, 9] : Except Nat (List Nat))) [1, 2, 3] =
      .ok [7, 8, 9]) ∧ (1 < 3) ∧
    ((flushBucket (fun _ : List Nat => (.ok [7, 8, 9] : Except Nat (List Nat)))
        [1, 2, 3]).get? 1 = some (.ok ([7, 8, 9].get? 1))) :=
  ⟨(c8_exactly_one_resolution
      (fun _ : List Nat => (.error 99 : Except Nat (List Nat))) [1, 2, 3]).1,
   rfl,
   (c8_exactly_one_resolution
      (fun _ : List Nat => (.error 99 : Except Nat (List Nat))) [1, 2, 3]).2.1
     99 rfl,
   rfl, by decide,
   (c8_exactly_one_resolution
      (fun _ : List Nat => (.ok [7, 8, 9] : Except Nat (List Nat)))
      [1, 2, 3]).2.2.1 [7, 8, 9] rfl 1 (by decide)⟩

theorem take_exact {X Y : List Nat} {n : Nat} (h : X.length = n) :
    (X ++ Y).take n = X := by
  subst h
  exact List.take_left X Y

theorem drop_exact {X Y : List Nat} {n : Nat} (h : X.length = n) :
    (X ++ Y).drop n = Y := by
  subst h
  exact List.drop_left X Y

theorem drop_pos_append {D X Y : List Nat} {pos : Nat}
    (h : D.drop pos = X ++ Y) : D.drop (pos + X.length) = Y := by
  have h2 : (D.drop pos).drop X.length = Y := by
    rw [h]
    exact List.drop_left X Y
  rw [List.drop_drop] at h2
  first
    | exact h2
    | (rw [Nat.add_comm]
       exact h2)

theorem readWord_at {D w R : List Nat} {pos : Nat} (hD : D.drop pos = w ++ R)
    (hw : w.length = 32) : readWord D pos = some (bytesToNat w) := by
  have hlen : D.length - pos = 32 + R.length := by
    have := congrArg List.length hD
    simp only [List.length_drop, List.length_append, hw] at this
    omega
  have hle : pos + 32 ≤ D.length := by
    by_cases hp : pos ≤ D.length
    · omega
    · exfalso
      have hnil : D.drop pos = [] := List.drop_eq_nil_of_le (by omega)
      rw [hnil] at hD
      have hc := congrArg List.length hD
      simp only [List.length_nil, List.length_append, hw] at hc
      omega
  unfold readWord
  rw [if_pos hle, hD, take_exact hw]

theorem readWord_word {D R : List Nat} {pos k : Nat}
    (hD : D.drop pos = wordEnc k ++ R) (hk : k < 2 ^ 256) :
    readWord D pos = some k := by
  rw [readWord_at hD (natToBytesBE_length 32 k)]
  unfold wordEnc
  rw [bytesToNat_natToBytesBE]
  congr 1
  exact Nat.mod_eq_of_lt hk

theorem padRight32_shape (bs : List Nat) :
    (padRight32 bs).length % 32 = 0 ∧ ∃ pad, padRight32 bs = bs ++ pad := by
  unfold padRight32
  refine ⟨?_, List.replicate ((32 - bs.length % 32) % 32) 0, rfl⟩
  simp only [List.length_append, List.length_replicate]
  omega

theorem staticSize_mod_all (n : Nat) :
    (∀ t : AbiType, sizeOf t ≤ n → staticSize t % 32 = 0) ∧
    (∀ ts : List AbiType, sizeOf ts ≤ n → staticSizeList ts % 32 = 0) := by
  induction n using Nat.strong_induction_on with
  | _ n ih =>
    constructor
    · intro t hsz
      match t with
      | .tuple ts =>
        rw [staticSize]
        have hlt : sizeOf ts < n := by
          have : sizeOf ts < sizeOf (AbiType.tuple ts) := by
            first
              | (simp
                 omega)
              | simp
          omega
        exact (ih (sizeOf ts) hlt).2 ts (Nat.le_refl _)
      | .array elem (some m) =>
        rw [staticSize]
        have hlt : sizeOf elem < n := by
          have : sizeOf elem < sizeOf (AbiType.array elem (some m)) := by
            first
              | (simp
                 omega)
              | simp
          omega
        have hmod := (ih (sizeOf elem) hlt).1 elem (Nat.le_refl _)
        obtain ⟨k, hk⟩ := Nat.dvd_of_mod_eq_zero hmod
        rw [hk]
        have hmul : m * (32 * k) = 32 * (m * k) := by ring
        rw [hmul]
        exact Nat.mul_mod_right 32 (m * k)
      | .uint bits => simp [staticSize]
      | .int bits => simp [staticSize]
      | .address => simp [staticSize]
      | .bool => simp [staticSize]
      | .fixedBytes k => simp [staticSize]
      | .bytes => simp [staticSize]
      | .string => simp [staticSize]
      | .array elem none => simp [staticSize]
    · intro ts hsz
      match ts with
      | [] => simp [staticSizeList]
      | t :: ts' =>
        rw [staticSizeList]
        have h1 : sizeOf t < n := by
          have : sizeOf t < sizeOf (t :: ts') := by
            first
              | (simp
                 omega)
              | simp
          omega
        have h2 : sizeOf ts' < n := by
          have : sizeOf ts' < sizeOf (t :: ts') := by
            first
              | (simp
                 omega)
              | simp
          omega
        have a1 := (ih (sizeOf t) h1).1 t (Nat.le_refl _)
        have a2 := (ih (sizeOf ts') h2).2 ts' (Nat.le_refl _)
        omega

theorem staticSize_mod (t : AbiType) : staticSize t % 32 = 0 :=
  (staticSize_mod_all (sizeOf t)).1 t (Nat.le_refl _)

theorem staticSizeList_mod (ts : List AbiType) : staticSizeList ts % 32 = 0 :=
  (staticSize_mod_all (sizeOf ts)).2 ts (Nat.le_refl _)

theorem slotSize_mod (t : AbiType) : slotSize t % 32 = 0 := by
  unfold slotSize
  by_cases h : isDynamic t = true
  · rw [if_pos h]
  · rw [if_neg h]
    exact staticSize_mod t

theorem headLen_mod (ts : List AbiType) : headLen ts % 32 = 0 := by
  induction ts with
  | nil => rfl
  | cons t ts ih =>
    rw [headLen]
    have := slotSize_mod t
    omega

theorem headLen_static (ts : List AbiType) (h : isDynamicList ts = false) :
    headLen ts = staticSizeList ts := by
  induction ts with
  | nil => rfl
  | cons t ts ih =>
    rw [isDynamicList] at h
    simp only [Bool.or_eq_false_iff] at h
    rw [headLen, staticSizeList, slotSize, if_neg (by rw [h.1]; simp),
      ih h.2]

theorem headLen_replicate (n : Nat) (t : AbiType) :
    headLen (List.replicate n t) = n * slotSize t := by
  induction n with
  | zero => simp [headLen]
  | succ n ih =>
    rw [List.replicate_succ, headLen, ih]
    ring

theorem isDynamicList_replicate (n : Nat) (t : AbiType)
    (h : isDynamic t = false) : isDynamicList (List.replicate n t) = false := by
  induction n with
  | zero => rw [List.replicate_zero, isDynamicList]
  | succ n ih =>
    rw [List.replicate_succ, isDynamicList, h, ih]
    rfl

theorem wfListB_replicate (n : Nat) (t : AbiType) (h : wfTypeB t = true) :
    wfListB (List.replicate n t) = true := by
  induction n with
  | zero => rw [List.replicate_zero, wfListB]
  | succ n ih =>
    rw [List.replicate_succ, wfListB, h, ih]
    rfl

theorem typedElems_replicate (t : AbiType) (vs : List AbiValue) :
    typedListB (List.replicate vs.length t) vs = typedElemsB t vs := by
  induction vs with
  | nil => rw [List.length_nil, List.replicate_zero, typedListB, typedElemsB]
  | cons v vs ih =>
    rw [List.length_cons, List.replicate_succ, typedListB, typedElemsB, ih]

theorem decStaticElems_eq (elem : AbiType) (n : Nat) (data : List Nat) :
    decStaticElems elem n data = decStaticList (List.replicate n elem) data := by
  induction n generalizing data with
  | zero => rw [List.replicate_zero, decStaticElems, decStaticList]
  | succ n ih =>
    rw [List.replicate_succ, decStaticElems, decStaticList, ih]

theorem decBlockElems_eq (elem : AbiType) (n : Nat) (data : List Nat)
    (pos : Nat) :
    decBlockElems elem n data pos =
      decBlockList (List.replicate n elem) data pos := by
  induction n generalizing pos with
  | zero => rw [List.replicate_zero, decBlockElems, decBlockList]
  | succ n ih =>
    rw [List.replicate_succ, decBlockElems, decBlockList, ih]

theorem staticSize_pos_all (n : Nat) :
    (∀ t : AbiType, sizeOf t ≤ n → wfTypeB t = true → isDynamic t = false →
      32 ≤ staticSize t) ∧
    (∀ ts : List AbiType, sizeOf ts ≤ n → wfListB ts = true →
      isDynamicList ts = false → ts ≠ [] → 32 ≤ staticSizeList ts) := by
  induction n using Nat.strong_induction_on with
  | _ n ih =>
    constructor
    · intro t hsz hwf hdyn
      match t with
      | .uint bits => simp [staticSize]
      | .int bits => simp [staticSize]
      | .address => simp [staticSize]
      | .bool => simp [staticSize]
      | .fixedBytes k => simp [staticSize]
      | .bytes => simp [isDynamic] at hdyn
      | .string => simp [isDynamic] at hdyn
      | .array elem none => simp [isDynamic] at hdyn
      | .tuple ts =>
        rw [staticSize]
        rw [wfTypeB] at hwf
        simp only [Bool.and_eq_true] at hwf
        have hlt : sizeOf ts < n := by
          have : sizeOf ts < sizeOf (AbiType.tuple ts) := by
            first
              | (simp
                 omega)
              | simp
          omega
        rw [isDynamic] at hdyn
        exact (ih (sizeOf ts) hlt).2 ts (Nat.le_refl _) hwf.2
          hdyn (by
            intro hc
            rw [hc] at hwf
            simp at hwf)
      | .array elem (some m) =>
        rw [staticSize]
        rw [wfTypeB] at hwf
        simp only [Bool.and_eq_true, decide_eq_true_eq] at hwf
        rw [isDynamic] at hdyn
        have hlt : sizeOf elem < n := by
          have : sizeOf elem < sizeOf (AbiType.array elem (some m)) := by
            first
              | (simp
                 omega)
              | simp
          omega
        have hs := (ih (sizeOf elem) hlt).1 elem (Nat.le_refl _) hwf.2 hdyn
        have h1 : 1 ≤ m := hwf.1
        calc 32 = 1 * 32 := by ring
        _ ≤ m * staticSize elem := Nat.mul_le_mul h1 hs
    · intro ts hsz hwf hdyn hne
      match ts with
      | t :: ts' =>
        rw [staticSizeList]
        rw [wfListB] at hwf
        rw [isDynamicList] at hdyn
        simp only [Bool.and_eq_true] at hwf
        simp only [Bool.or_eq_false_iff] at hdyn
        have h1 : sizeOf t < n := by
          have : sizeOf t < sizeOf (t :: ts') := by
            first
              | (simp
                 omega)
              | simp
          omega
        have := (ih (sizeOf t) h1).1 t (Nat.le_refl _) hwf.1 hdyn.1
        omega

theorem staticSize_pos (t : AbiType) (hwf : wfTypeB t = true)
    (hdyn : isDynamic t = false) : 32 ≤ staticSize t :=
  (staticSize_pos_all (sizeOf t)).1 t (Nat.le_refl _) hwf hdyn

theorem sz_head (v : AbiValue) (vs : List AbiValue) :
    sizeOf v < sizeOf (v :: vs) := by
  first
    | (simp
       omega)
    | simp

theorem sz_tail (v : AbiValue) (vs : List AbiValue) :
    sizeOf vs < sizeOf (v :: vs) := by
  first
    | (simp
       omega)
    | simp

theorem sz_vtuple (vs : List AbiValue) :
    sizeOf vs < sizeOf (AbiValue.vtuple vs) := by
  first
    | (simp
       omega)
    | simp

/-- Lengths of encodings: a static parameter's inline form is exactly its
static width; a dynamic payload is a multiple of 32 bytes; a block's head is
exactly the head region width and an all-static block has an empty tail. -/
theorem encLen_all (n : Nat) :
    (∀ (t : AbiType) (v : AbiValue) (bs : List Nat), sizeOf v ≤ n →
      enc t v = some bs →
      (isDynamic t = false → bs.length = staticSize t) ∧
      (isDynamic t = true → bs.length % 32 = 0)) ∧
    (∀ (base : Nat) (ts : List AbiType) (vs : List AbiValue)
        (h tl : List Nat), sizeOf vs ≤ n →
      encBlockAux base ts vs = some (h, tl) →
      h.length = headLen ts ∧ tl.length % 32 = 0 ∧
      (isDynamicList ts = false → tl = [])) := by
  induction n using Nat.strong_induction_on with
  | _ n ih =>
    constructor
    · intro t v bs hsz henc
      match t, v with
      | .uint bits, .vuint x =>
        simp only [enc, wordEncChecked] at henc
        split_ifs at henc
        simp only [Option.some.injEq] at henc
        subst henc
        refine ⟨fun _ => by simp [natToBytesBE_length, staticSize], fun hd => by
          simp [isDynamic] at hd⟩
      | .address, .vuint x =>
        simp only [enc, wordEncChecked] at henc
        split_ifs at henc
        simp only [Option.some.injEq] at henc
        subst henc
        refine ⟨fun _ => by simp [natToBytesBE_length, staticSize], fun hd => by
          simp [isDynamic] at hd⟩
      | .int bits, .vint i =>
        simp only [enc, Option.some.injEq] at henc
        subst henc
        refine ⟨fun _ => by simp [natToBytesBE_length, staticSize], fun hd => by
          simp [isDynamic] at hd⟩
      | .bool, .vbool b =>
        simp only [enc, Option.some.injEq] at henc
        subst henc
        refine ⟨fun _ => by simp [wordEnc, natToBytesBE_length, staticSize],
          fun hd => by simp [isDynamic] at hd⟩
      | .fixedBytes k, .vbytes bs0 =>
        simp only [enc] at henc
        split_ifs at henc with hle
        simp only [Option.some.injEq] at henc
        subst henc
        refine ⟨fun _ => by
          simp only [List.length_append, List.length_replicate, staticSize]
          omega,
          fun hd => by simp [isDynamic] at hd⟩
      | .bytes, .vbytes bs0 =>
        simp only [enc, wordEncChecked] at henc
        split_ifs at henc
        · simp only [Option.map_some', Option.some.injEq] at henc
          subst henc
          refine ⟨fun hs => by simp [isDynamic] at hs, fun _ => ?_⟩
          have hm := (padRight32_shape bs0).1
          simp only [List.length_append, natToBytesBE_length]
          omega
        · simp at henc
      | .string, .vbytes bs0 =>
        simp only [enc, wordEncChecked] at henc
        split_ifs at henc
        · simp only [Option.map_some', Option.some.injEq] at henc
          subst henc
          refine ⟨fun hs => by simp [isDynamic] at hs, fun _ => ?_⟩
          have hm := (padRight32_shape bs0).1
          simp only [List.length_append, natToBytesBE_length]
          omega
        · simp at henc
      | .tuple ts, .vtuple vs =>
        simp only [enc] at henc
        rcases haux : encBlockAux (headLen ts) ts vs with _ | ⟨hh, tt⟩
        · rw [haux] at henc
          simp at henc
        · rw [haux] at henc
          simp only [Option.map_some', Option.some.injEq] at henc
          subst henc
          have hvs : sizeOf vs < n :=
            Nat.lt_of_lt_of_le (sz_vtuple vs) hsz
          have hb := (ih (sizeOf vs) hvs).2 (headLen ts) ts vs hh tt
            (Nat.le_refl _) haux
          constructor
          · intro hdyn
            rw [isDynamic] at hdyn
            rw [List.length_append, hb.1, hb.2.2 hdyn]
            rw [headLen_static ts hdyn, staticSize]
            simp
          · intro _
            have h1 := headLen_mod ts
            have h2 := hb.2.1
            rw [List.length_append, hb.1]
            omega
      | .array elem (some m), .vtuple vs =>
        simp only [enc] at henc
        split_ifs at henc with hlenvs
        rcases haux : encBlockAux (headLen (List.replicate m elem))
            (List.replicate m elem) vs with _ | ⟨hh, tt⟩
        · rw [haux] at henc
          simp at henc
        · rw [haux] at henc
          simp only [Option.map_some', Option.some.injEq] at henc
          subst henc
          have hvs : sizeOf vs < n :=
            Nat.lt_of_lt_of_le (sz_vtuple vs) hsz
          have hb := (ih (sizeOf vs) hvs).2 _ _ vs hh tt (Nat.le_refl _) haux
          constructor
          · intro hdyn
            rw [isDynamic] at hdyn
            rw [List.length_append, hb.1,
              hb.2.2 (isDynamicList_replicate m elem hdyn),
              headLen_replicate, slotSize, if_neg (by rw [hdyn]; simp),
              staticSize]
            simp
          · intro _
            have h1 := headLen_mod (List.replicate m elem)
            have h2 := hb.2.1
            rw [List.length_append, hb.1]
            omega
      | .array elem none, .vtuple vs =>
        simp only [enc, wordEncChecked] at henc
        split_ifs at henc
        case neg => simp at henc
        simp only [Option.some_bind] at henc
        rcases haux : encBlockAux (headLen (List.replicate vs.length elem))
            (List.replicate vs.length elem) vs with _ | ⟨hh, tt⟩
        · rw [haux] at henc
          simp at henc
        · rw [haux] at henc
          simp only [Option.map_some', Option.some.injEq] at henc
          subst henc
          have hvs : sizeOf vs < n :=
            Nat.lt_of_lt_of_le (sz_vtuple vs) hsz
          have hb := (ih (sizeOf vs) hvs).2 _ _ vs hh tt (Nat.le_refl _) haux
          refine ⟨fun hs => by simp [isDynamic] at hs, fun _ => ?_⟩
          have h1 := headLen_mod (List.replicate vs.length elem)
          have h2 := hb.2.1
          simp only [List.length_append, natToBytesBE_length, hb.1]
          omega
      | .uint bits, .vint i => simp [enc] at henc
      | .uint bits, .vbool b => simp [enc] at henc
      | .uint bits, .vbytes b => simp [enc] at henc
      | .uint bits, .vtuple b => simp [enc] at henc
      | .int bits, .vuint x => simp [enc] at henc
      | .int bits, .vbool b => simp [enc] at henc
      | .int bits, .vbytes b => simp [enc] at henc
      | .int bits, .vtuple b => simp [enc] at henc
      | .address, .vint i => simp [enc] at henc
      | .address, .vbool b => simp [enc] at henc
      | .address, .vbytes b => simp [enc] at henc
      | .address, .vtuple b => simp [enc] at henc
      | .bool, .vuint x => simp [enc] at henc
      | .bool, .vint i => simp [enc] at henc
      | .bool, .vbytes b => simp [enc] at henc
      | .bool, .vtuple b => simp [enc] at henc
      | .fixedBytes k, .vuint x => simp [enc] at henc
      | .fixedBytes k, .vint i => simp [enc] at henc
      | .fixedBytes k, .vbool b => simp [enc] at henc
      | .fixedBytes k, .vtuple b => simp [enc] at henc
      | .bytes, .vuint x => simp [enc] at henc
      | .bytes, .vint i => simp [enc] at henc
      | .bytes, .vbool b => simp [enc] at henc
      | .bytes, .vtuple b => simp [enc] at henc
      | .string, .vuint x => simp [enc] at henc
      | .string, .vint i => simp [enc] at henc
      | .string, .vbool b => simp [enc] at henc
      | .string, .vtuple b => simp [enc] at henc
      | .tuple ts, .vuint x => simp [enc] at henc
      | .tuple ts, .vint i => simp [enc] at henc
      | .tuple ts, .vbool b => simp [enc] at henc
      | .tuple ts, .vbytes b => simp [enc] at henc
      | .array elem (some m), .vuint x => simp [enc] at henc
      | .array elem (some m), .vint i => simp [enc] at henc
      | .array elem (some m), .vbool b => simp [enc] at henc
      | .array elem (some m), .vbytes b => simp [enc] at henc
      | .array elem none, .vuint x => simp [enc] at henc
      | .array elem none, .vint i => simp [enc] at henc
      | .array elem none, .vbool b => simp [enc] at henc
      | .array elem none, .vbytes b => simp [enc] at henc
    · intro base ts vs h tl hsz henc
      match ts, vs with
      | [], [] =>
        simp only [encBlockAux, Option.some.injEq, Prod.mk.injEq] at henc
        obtain ⟨rfl, rfl⟩ := henc
        exact ⟨by simp [headLen], by simp, fun _ => rfl⟩
      | [], v :: vs => simp [encBlockAux] at henc
      | t :: ts, [] => simp [encBlockAux] at henc
      | t :: ts, v :: vs =>
        simp only [encBlockAux] at henc
        by_cases hdy : isDynamic t = true
        · rw [if_pos hdy] at henc
          rcases he : enc t v with _ | blk
          · rw [he] at henc
            simp at henc
          · rw [he] at henc
            simp only [Option.some_bind] at henc
            unfold wordEncChecked at henc
            split_ifs at henc with h256
            · simp only [Option.some_bind] at henc
              rcases haux : encBlockAux (base + blk.length) ts vs
                  with _ | ⟨hh, tt⟩
              · rw [haux] at henc
                simp at henc
              · rw [haux] at henc
                simp only [Option.map_some', Option.some.injEq,
                  Prod.mk.injEq] at henc
                obtain ⟨rfl, rfl⟩ := henc
                have hv : sizeOf v < n :=
                  Nat.lt_of_lt_of_le (sz_head v vs) hsz
                have hvs : sizeOf vs < n :=
                  Nat.lt_of_lt_of_le (sz_tail v vs) hsz
                have hblk := ((ih (sizeOf v) hv).1 t v blk
                  (Nat.le_refl _) he).2 hdy
                have hb := (ih (sizeOf vs) hvs).2 (base + blk.length) ts vs
                  hh tt (Nat.le_refl _) haux
                refine ⟨?_, ?_, ?_⟩
                · rw [List.length_append, natToBytesBE_length, hb.1,
                    headLen, slotSize, if_pos hdy]
                · rw [List.length_append]
                  have := hb.2.1
                  omega
                · intro hcon
                  rw [isDynamicList, hdy] at hcon
                  simp at hcon
            · simp at henc
        · rw [if_neg hdy] at henc
          rcases he : enc t v with _ | e
          · rw [he] at henc
            simp at henc
          · rw [he] at henc
            simp only [Option.some_bind] at henc
            rcases haux : encBlockAux base ts vs with _ | ⟨hh, tt⟩
            · rw [haux] at henc
              simp at henc
            · rw [haux] at henc
              simp only [Option.map_some', Option.some.injEq,
                Prod.mk.injEq] at henc
              obtain ⟨rfl, rfl⟩ := henc
              have hv : sizeOf v < n :=
                Nat.lt_of_lt_of_le (sz_head v vs) hsz
              have hvs : sizeOf vs < n :=
                Nat.lt_of_lt_of_le (sz_tail v vs) hsz
              have hdy' : isDynamic t = false := by
                simpa using hdy
              have he' := ((ih (sizeOf v) hv).1 t v e (Nat.le_refl _) he).1 hdy'
              have hb := (ih (sizeOf vs) hvs).2 base ts vs hh tt
                (Nat.le_refl _) haux
              refine ⟨?_, hb.2.1, ?_⟩
              · rw [List.length_append, he', hb.1, headLen, slotSize,
                  if_neg hdy]
              · intro hcon
                rw [isDynamicList] at hcon
                simp only [Bool.or_eq_false_iff] at hcon
                exact hb.2.2 hcon.2

/-- ABI codec round trip: a static encoding decodes inline, a dynamic
payload decodes at its offset, an encoded head/tail block decodes slot by
slot under the running-offset invariant, and an all-static block decodes
as consecutive inline values. -/
theorem abiRoundtrip_all (n : Nat) :
    (∀ (t : AbiType) (v : AbiValue) (bs : List Nat), sizeOf v ≤ n →
      typedB t v = true → wfTypeB t = true → isDynamic t = false →
      enc t v = some bs → ∀ rest, decStatic t (bs ++ rest) = some v) ∧
    (∀ (t : AbiType) (v : AbiValue) (bs : List Nat), sizeOf v ≤ n →
      typedB t v = true → wfTypeB t = true → isDynamic t = true →
      enc t v = some bs → ∀ rest, decDyn t (bs ++ rest) = some v) ∧
    (∀ (ts : List AbiType) (vs : List AbiValue) (base : Nat)
        (hd tl : List Nat), sizeOf vs ≤ n →
      typedListB ts vs = true → wfListB ts = true →
      encBlockAux base ts vs = some (hd, tl) →
      ∀ (D : List Nat) (pos : Nat) (mid rest : List Nat),
        D.drop pos = hd ++ (mid ++ (tl ++ rest)) →
        base = pos + hd.length + mid.length →
        decBlockList ts D pos = some vs) ∧
    (∀ (ts : List AbiType) (vs : List AbiValue) (base : Nat)
        (hd tl : List Nat), sizeOf vs ≤ n →
      typedListB ts vs = true → wfListB ts = true →
      isDynamicList ts = false →
      encBlockAux base ts vs = some (hd, tl) →
      ∀ rest, decStaticList ts (hd ++ rest) = some vs) := by
  induction n using Nat.strong_induction_on with
  | _ n ih =>
    refine ⟨?_, ?_, ?_, ?_⟩
    · -- (A) static decode of a static encoding
      intro t v bs hsz hty hwf hdyn henc
      match t, v with
      | .uint bits, .vuint x =>
        simp only [enc, wordEncChecked] at henc
        split_ifs at henc with h256
        simp only [Option.some.injEq] at henc
        subst henc
        intro rest
        rw [decStatic]
        have hD : (natToBytesBE 32 x ++ rest).drop 0 = wordEnc x ++ rest := by
          simp [wordEnc]
        rw [readWord_word hD h256]
        rfl
      | .address, .vuint x =>
        simp only [enc, wordEncChecked] at henc
        split_ifs at henc with h256
        simp only [Option.some.injEq] at henc
        subst henc
        simp only [typedB, decide_eq_true_eq] at hty
        intro rest
        rw [decStatic]
        have hD : (natToBytesBE 32 x ++ rest).drop 0 = wordEnc x ++ rest := by
          simp [wordEnc]
        rw [readWord_word hD h256]
        simp only [Option.map_some', Option.some.injEq]
        rw [Nat.mod_eq_of_lt hty]
      | .int bits, .vint i =>
        simp only [enc, Option.some.injEq] at henc
        subst henc
        simp only [typedB, decide_eq_true_eq] at hty
        obtain ⟨hlo, hhi⟩ := hty
        simp only [wfTypeB, decide_eq_true_eq] at hwf
        have hple : (2 : Int) ^ (bits - 1) ≤ 2 ^ 255 := by
          apply pow_le_pow_right (by norm_num)
          omega
        have hrlo : -(2 ^ 255 : Int) ≤ i := by linarith
        have hrhi : i < (2 ^ 255 : Int) := by linarith
        have hAB : (2 : Int) ^ 256 = 2 ^ 255 + 2 ^ 255 := by norm_num
        have hposB : (0 : Int) < 2 ^ 256 := by positivity
        have hmn : 0 ≤ i.emod (2 ^ 256) := Int.emod_nonneg i (by positivity)
        have hml : i.emod (2 ^ 256) < 2 ^ 256 := Int.emod_lt_of_pos i hposB
        set w := (i.emod (2 ^ 256)).toNat with hwdef
        have hcast : ((w : Int)) = i.emod (2 ^ 256) := Int.toNat_of_nonneg hmn
        have h256 : w < 2 ^ 256 := by
          have hI : ((w : Int)) < (2 : Int) ^ 256 := by
            rw [hcast]
            exact hml
          exact_mod_cast hI
        have hemod : i.emod (2 ^ 256) = if 0 ≤ i then i else i + 2 ^ 256 := by
          split_ifs with hi
          · exact Int.emod_eq_of_lt hi (by linarith)
          · have hshift : ((i + 2 ^ 256).emod (2 ^ 256)) = i.emod (2 ^ 256) := by
              have hm := Int.add_mul_emod_self_left (a := i) (b := (2 : Int) ^ 256)
                (c := (1 : Int))
              rw [mul_one] at hm
              exact hm
            rw [← hshift]
            exact Int.emod_eq_of_lt (by linarith) (by linarith)
        intro rest
        rw [decStatic]
        have hD : (natToBytesBE 32 w ++ rest).drop 0 = wordEnc w ++ rest := by
          simp [wordEnc]
        rw [readWord_word hD h256]
        simp only [Option.bind_eq_bind, Option.some_bind, Option.pure_def,
          Option.map_some', Option.some.injEq, AbiValue.vint.injEq]
        split_ifs with hwlt
        · by_cases hi : 0 ≤ i
          · rw [hemod, if_pos hi] at hcast
            exact hcast
          · exfalso
            rw [hemod, if_neg hi] at hcast
            linarith
        · have hwI : (2 ^ 255 : Int) ≤ (w : Int) := not_lt.mp hwlt
          by_cases hi : 0 ≤ i
          · exfalso
            rw [hemod, if_pos hi] at hcast
            linarith
          · rw [hemod, if_neg hi] at hcast
            rw [hcast]
            ring
      | .bool, .vbool b =>
        cases b <;> simp [enc] at henc <;> subst henc
        · intro rest
          rw [decStatic]
          have hD : (wordEnc 0 ++ rest).drop 0 = wordEnc 0 ++ rest :=
            List.drop_zero _
          rw [readWord_word hD (by norm_num)]
          rfl
        · intro rest
          rw [decStatic]
          have hD : (wordEnc 1 ++ rest).drop 0 = wordEnc 1 ++ rest :=
            List.drop_zero _
          rw [readWord_word hD (by norm_num)]
          rfl
      | .fixedBytes k, .vbytes bs0 =>
        simp only [enc] at henc
        split_ifs at henc with hle
        simp only [Option.some.injEq] at henc
        subst henc
        simp only [typedB, Bool.and_eq_true, decide_eq_true_eq] at hty
        intro rest
        rw [decStatic]
        rw [if_pos (by
          simp only [List.length_append, List.length_replicate]
          omega)]
        simp only [Option.some.injEq, AbiValue.vbytes.injEq]
        rw [List.append_assoc]
        exact take_exact hty.1
      | .tuple ts, .vtuple vs =>
        simp only [enc] at henc
        rcases haux : encBlockAux (headLen ts) ts vs with _ | ⟨hh, tt⟩
        · rw [haux] at henc
          simp at henc
        · rw [haux] at henc
          simp only [Option.map_some', Option.some.injEq] at henc
          subst henc
          rw [isDynamic] at hdyn
          rw [typedB] at hty
          rw [wfTypeB] at hwf
          simp only [Bool.and_eq_true] at hwf
          have htt : tt = [] := ((encLen_all (sizeOf vs)).2 (headLen ts) ts vs
            hh tt (Nat.le_refl _) haux).2.2 hdyn
          subst htt
          have hvs : sizeOf vs < n := Nat.lt_of_lt_of_le (sz_vtuple vs) hsz
          intro rest
          rw [decStatic]
          rw [List.append_nil]
          rw [(ih (sizeOf vs) hvs).2.2.2 ts vs (headLen ts) hh []
            (Nat.le_refl _) hty hwf.2 hdyn haux rest]
          rfl
      | .array elem (some m), .vtuple vs =>
        simp only [enc] at henc
        split_ifs at henc with hlenvs
        rcases haux : encBlockAux (headLen (List.replicate m elem))
            (List.replicate m elem) vs with _ | ⟨hh, tt⟩
        · rw [haux] at henc
          simp at henc
        · rw [haux] at henc
          simp only [Option.map_some', Option.some.injEq] at henc
          subst henc
          rw [isDynamic] at hdyn
          rw [typedB] at hty
          simp only [Bool.and_eq_true, decide_eq_true_eq] at hty
          rw [wfTypeB] at hwf
          simp only [Bool.and_eq_true, decide_eq_true_eq] at hwf
          have htt : tt = [] := ((encLen_all (sizeOf vs)).2 _ _ vs
            hh tt (Nat.le_refl _) haux).2.2 (isDynamicList_replicate m elem hdyn)
          subst htt
          have hvs : sizeOf vs < n := Nat.lt_of_lt_of_le (sz_vtuple vs) hsz
          have htyrep : typedListB (List.replicate m elem) vs = true := by
            rw [← hty.1, typedElems_replicate]
            exact hty.2
          intro rest
          rw [decStatic]
          rw [if_neg (by simp [hdyn])]
          rw [List.append_nil]
          rw [decStaticElems_eq]
          rw [(ih (sizeOf vs) hvs).2.2.2 (List.replicate m elem) vs
            (headLen (List.replicate m elem)) hh [] (Nat.le_refl _)
            htyrep (wfListB_replicate m elem hwf.2)
            (isDynamicList_replicate m elem hdyn) haux rest]
          rfl
      | .bytes, .vbytes bs0 => simp [isDynamic] at hdyn
      | .string, .vbytes bs0 => simp [isDynamic] at hdyn
      | .array elem none, .vtuple vs => simp [isDynamic] at hdyn
      | .uint bits, .vint i => simp [enc] at henc
      | .uint bits, .vbool b => simp [enc] at henc
      | .uint bits, .vbytes bs0 => simp [enc] at henc
      | .uint bits, .vtuple vs => simp [enc] at henc
      | .int bits, .vuint x => simp [enc] at henc
      | .int bits, .vbool b => simp [enc] at henc
      | .int bits, .vbytes bs0 => simp [enc] at henc
      | .int bits, .vtuple vs => simp [enc] at henc
      | .address, .vint i => simp [enc] at henc
      | .address, .vbool b => simp [enc] at henc
      | .address, .vbytes bs0 => simp [enc] at henc
      | .address, .vtuple vs => simp [enc] at henc
      | .bool, .vuint x => simp [enc] at henc
      | .bool, .vint i => simp [enc] at henc
      | .bool, .vbytes bs0 => simp [enc] at henc
      | .bool, .vtuple vs => simp [enc] at henc
      | .fixedBytes k, .vuint x => simp [enc] at henc
      | .fixedBytes k, .vint i => simp [enc] at henc
      | .fixedBytes k, .vbool b => simp [enc] at henc
      | .fixedBytes k, .vtuple vs => simp [enc] at henc
      | .bytes, .vuint x => simp [enc] at henc
      | .bytes, .vint i => simp [enc] at henc
      | .bytes, .vbool b => simp [enc] at henc
      | .bytes, .vtuple vs => simp [enc] at henc
      | .string, .vuint x => simp [enc] at henc
      | .string, .vint i => simp [enc] at henc
      | .string, .vbool b => simp [enc] at henc
      | .string, .vtuple vs => simp [enc] at henc
      | .tuple ts, .vuint x => simp [enc] at henc
      | .tuple ts, .vint i => simp [enc] at henc
      | .tuple ts, .vbool b => simp [enc] at henc
      | .tuple ts, .vbytes bs0 => simp [enc] at henc
      | .array elem (some m), .vuint x => simp [enc] at henc
      | .array elem (some m), .vint i => simp [enc] at henc
      | .array elem (some m), .vbool b => simp [enc] at henc
      | .array elem (some m), .vbytes bs0 => simp [enc] at henc
      | .array elem none, .vuint x => simp [enc] at henc
      | .array elem none, .vint i => simp [enc] at henc
      | .array elem none, .vbool b => simp [enc] at henc
      | .array elem none, .vbytes bs0 => simp [enc] at henc
    · -- (B) dynamic decode of a dynamic payload
      intro t v bs hsz hty hwf hdyn henc
      match t, v with
      | .bytes, .vbytes bs0 =>
        simp only [enc, wordEncChecked] at henc
        split_ifs at henc with h256
        · simp only [Option.map_some', Option.some.injEq] at henc
          subst henc
          intro rest
          rw [decDyn]
          have hD : ((natToBytesBE 32 bs0.length ++ padRight32 bs0) ++ rest).drop 0 =
              wordEnc bs0.length ++ (padRight32 bs0 ++ rest) := by
            simp [wordEnc, List.append_assoc]
          rw [readWord_word hD h256]
          simp only [Option.some_bind]
          obtain ⟨pad, hpad⟩ := (padRight32_shape bs0).2
          have hdrop : ((natToBytesBE 32 bs0.length ++ padRight32 bs0) ++ rest).drop 32 =
              bs0 ++ (pad ++ rest) := by
            rw [List.append_assoc, drop_exact (natToBytesBE_length 32 bs0.length),
              hpad, List.append_assoc]
          rw [hdrop]
          rw [if_pos (by simp only [List.length_append]; omega)]
          rw [take_exact rfl]
        · simp at henc
      | .string, .vbytes bs0 =>
        simp only [enc, wordEncChecked] at henc
        split_ifs at henc with h256
        · simp only [Option.map_some', Option.some.injEq] at henc
          subst henc
          intro rest
          rw [decDyn]
          have hD : ((natToBytesBE 32 bs0.length ++ padRight32 bs0) ++ rest).drop 0 =
              wordEnc bs0.length ++ (padRight32 bs0 ++ rest) := by
            simp [wordEnc, List.append_assoc]
          rw [readWord_word hD h256]
          simp only [Option.some_bind]
          obtain ⟨pad, hpad⟩ := (padRight32_shape bs0).2
          have hdrop : ((natToBytesBE 32 bs0.length ++ padRight32 bs0) ++ rest).drop 32 =
              bs0 ++ (pad ++ rest) := by
            rw [List.append_assoc, drop_exact (natToBytesBE_length 32 bs0.length),
              hpad, List.append_assoc]
          rw [hdrop]
          rw [if_pos (by simp only [List.length_append]; omega)]
          rw [take_exact rfl]
        · simp at henc
      | .tuple ts, .vtuple vs =>
        simp only [enc] at henc
        rcases haux : encBlockAux (headLen ts) ts vs with _ | ⟨hh, tt⟩
        · rw [haux] at henc
          simp at henc
        · rw [haux] at henc
          simp only [Option.map_some', Option.some.injEq] at henc
          subst henc
          rw [typedB] at hty
          rw [wfTypeB] at hwf
          simp only [Bool.and_eq_true] at hwf
          have hlenh : hh.length = headLen ts :=
            ((encLen_all (sizeOf vs)).2 (headLen ts) ts vs hh tt
              (Nat.le_refl _) haux).1
          have hvs : sizeOf vs < n := Nat.lt_of_lt_of_le (sz_vtuple vs) hsz
          intro rest
          rw [decDyn]
          rw [(ih (sizeOf vs) hvs).2.2.1 ts vs (headLen ts) hh tt
            (Nat.le_refl _) hty hwf.2 haux ((hh ++ tt) ++ rest) 0 [] rest
            (by simp [List.append_assoc])
            (by simp only [List.length_nil, hlenh]; omega)]
          rfl
      | .array elem (some m), .vtuple vs =>
        simp only [enc] at henc
        split_ifs at henc with hlenvs
        rcases haux : encBlockAux (headLen (List.replicate m elem))
            (List.replicate m elem) vs with _ | ⟨hh, tt⟩
        · rw [haux] at henc
          simp at henc
        · rw [haux] at henc
          simp only [Option.map_some', Option.some.injEq] at henc
          subst henc
          rw [typedB] at hty
          simp only [Bool.and_eq_true, decide_eq_true_eq] at hty
          rw [wfTypeB] at hwf
          simp only [Bool.and_eq_true, decide_eq_true_eq] at hwf
          have hlenh : hh.length = headLen (List.replicate m elem) :=
            ((encLen_all (sizeOf vs)).2 _ _ vs hh tt (Nat.le_refl _) haux).1
          have htyrep : typedListB (List.replicate m elem) vs = true := by
            rw [← hty.1, typedElems_replicate]
            exact hty.2
          have hvs : sizeOf vs < n := Nat.lt_of_lt_of_le (sz_vtuple vs) hsz
          intro rest
          rw [decDyn]
          rw [decBlockElems_eq]
          rw [(ih (sizeOf vs) hvs).2.2.1 (List.replicate m elem) vs
            (headLen (List.replicate m elem)) hh tt (Nat.le_refl _) htyrep
            (wfListB_replicate m elem hwf.2) haux ((hh ++ tt) ++ rest) 0 [] rest
            (by simp [List.append_assoc])
            (by simp only [List.length_nil, hlenh]; omega)]
          rfl
      | .array elem none, .vtuple vs =>
        simp only [enc, wordEncChecked] at henc
        split_ifs at henc with h256
        · rcases haux : encBlockAux (headLen (List.replicate vs.length elem))
              (List.replicate vs.length elem) vs with _ | ⟨hh, tt⟩
          · rw [haux] at henc
            simp at henc
          · rw [haux] at henc
            simp only [Option.some_bind, Option.map_some',
              Option.some.injEq] at henc
            subst henc
            rw [typedB] at hty
            rw [wfTypeB] at hwf
            have hlenh : hh.length = headLen (List.replicate vs.length elem) :=
              ((encLen_all (sizeOf vs)).2 _ _ vs hh tt (Nat.le_refl _) haux).1
            have htyrep : typedListB (List.replicate vs.length elem) vs = true := by
              rw [typedElems_replicate]
              exact hty
            have hvs : sizeOf vs < n := Nat.lt_of_lt_of_le (sz_vtuple vs) hsz
            intro rest
            rw [decDyn]
            have hD : ((natToBytesBE 32 vs.length ++ (hh ++ tt)) ++ rest).drop 0 =
                wordEnc vs.length ++ ((hh ++ tt) ++ rest) := by
              simp [wordEnc, List.append_assoc]
            rw [readWord_word hD h256]
            simp only [Option.some_bind]
            have hdrop : ((natToBytesBE 32 vs.length ++ (hh ++ tt)) ++ rest).drop 32 =
                (hh ++ tt) ++ rest := by
              rw [List.append_assoc]
              exact drop_exact (natToBytesBE_length 32 vs.length)
            rw [hdrop]
            rw [decBlockElems_eq]
            rw [(ih (sizeOf vs) hvs).2.2.1 (List.replicate vs.length elem) vs
              (headLen (List.replicate vs.length elem)) hh tt (Nat.le_refl _)
              htyrep (wfListB_replicate vs.length elem hwf) haux
              ((hh ++ tt) ++ rest) 0 [] rest
              (by simp [List.append_assoc])
              (by simp only [List.length_nil, hlenh]; omega)]
            rfl
        · simp at henc
      | .uint bits, .vuint x => simp [isDynamic] at hdyn
      | .int bits, .vint i => simp [isDynamic] at hdyn
      | .address, .vuint x => simp [isDynamic] at hdyn
      | .bool, .vbool b => simp [isDynamic] at hdyn
      | .fixedBytes k, .vbytes bs0 => simp [isDynamic] at hdyn
      | .uint bits, .vint i => simp [enc] at henc
      | .uint bits, .vbool b => simp [enc] at henc
      | .uint bits, .vbytes bs0 => simp [enc] at henc
      | .uint bits, .vtuple vs => simp [enc] at henc
      | .int bits, .vuint x => simp [enc] at henc
      | .int bits, .vbool b => simp [enc] at henc
      | .int bits, .vbytes bs0 => simp [enc] at henc
      | .int bits, .vtuple vs => simp [enc] at henc
      | .address, .vint i => simp [enc] at henc
      | .address, .vbool b => simp [enc] at henc
      | .address, .vbytes bs0 => simp [enc] at henc
      | .address, .vtuple vs => simp [enc] at henc
      | .bool, .vuint x => simp [enc] at henc
      | .bool, .vint i => simp [enc] at henc
      | .bool, .vbytes bs0 => simp [enc] at henc
      | .bool, .vtuple vs => simp [enc] at henc
      | .fixedBytes k, .vuint x => simp [enc] at henc
      | .fixedBytes k, .vint i => simp [enc] at henc
      | .fixedBytes k, .vbool b => simp [enc] at henc
      | .fixedBytes k, .vtuple vs => simp [enc] at henc
      | .bytes, .vuint x => simp [enc] at henc
      | .bytes, .vint i => simp [enc] at henc
      | .bytes, .vbool b => simp [enc] at henc
      | .bytes, .vtuple vs => simp [enc] at henc
      | .string, .vuint x => simp [enc] at henc
      | .string, .vint i => simp [enc] at henc
      | .string, .vbool b => simp [enc] at henc
      | .string, .vtuple vs => simp [enc] at henc
      | .tuple ts, .vuint x => simp [enc] at henc
      | .tuple ts, .vint i => simp [enc] at henc
      | .tuple ts, .vbool b => simp [enc] at henc
      | .tuple ts, .vbytes bs0 => simp [enc] at henc
      | .array elem (some m), .vuint x => simp [enc] at henc
      | .array elem (some m), .vint i => simp [enc] at henc
      | .array elem (some m), .vbool b => simp [enc] at henc
      | .array elem (some m), .vbytes bs0 => simp [enc] at henc
      | .array elem none, .vuint x => simp [enc] at henc
      | .array elem none, .vint i => simp [enc] at henc
      | .array elem none, .vbool b => simp [enc] at henc
      | .array elem none, .vbytes bs0 => simp [enc] at henc
    · -- (C) block decode under the running-offset invariant
      intro ts vs base hd tl hsz hty hwf henc
      match ts, vs with
      | [], [] =>
        simp only [encBlockAux, Option.some.injEq, Prod.mk.injEq] at henc
        obtain ⟨rfl, rfl⟩ := henc
        intro D pos mid rest hD hbase
        rw [decBlockList]
      | [], v :: vs' => simp [typedListB] at hty
      | t :: ts', [] => simp [typedListB] at hty
      | t :: ts', v :: vs' =>
        simp only [typedListB, Bool.and_eq_true] at hty
        simp only [wfListB, Bool.and_eq_true] at hwf
        simp only [encBlockAux] at henc
        by_cases hdy : isDynamic t = true
        · rw [if_pos hdy] at henc
          rcases henc1 : enc t v with _ | blk
          · rw [henc1] at henc
            simp at henc
          · rw [henc1] at henc
            simp only [Option.some_bind, wordEncChecked] at henc
            split_ifs at henc with h256
            · rcases haux : encBlockAux (base + blk.length) ts' vs' with _ | ⟨hh, tt⟩
              · rw [haux] at henc
                simp at henc
              · rw [haux] at henc
                simp only [Option.some_bind, Option.map_some', Option.some.injEq,
                  Prod.mk.injEq] at henc
                obtain ⟨rfl, rfl⟩ := henc
                intro D pos mid rest hD hbase
                have hD1 : D.drop pos =
                    wordEnc base ++ (hh ++ (mid ++ ((blk ++ tt) ++ rest))) := by
                  rw [hD]
                  simp [wordEnc, List.append_assoc]
                rw [decBlockList, decHead, if_pos hdy]
                rw [readWord_word hD1 h256]
                simp only [Option.some_bind]
                have e1 : D.drop (pos + 32) = hh ++ (mid ++ ((blk ++ tt) ++ rest)) := by
                  have he := drop_pos_append hD1
                  rwa [wordEnc, natToBytesBE_length] at he
                have e2 : D.drop (pos + 32 + hh.length) =
                    mid ++ ((blk ++ tt) ++ rest) := drop_pos_append e1
                have e3 : D.drop (pos + 32 + hh.length + mid.length) =
                    (blk ++ tt) ++ rest := drop_pos_append e2
                have hbase2 : base = pos + 32 + hh.length + mid.length := by
                  rw [hbase]
                  simp only [List.length_append, natToBytesBE_length]
                  omega
                have hDb : D.drop base = blk ++ (tt ++ rest) := by
                  rw [hbase2, e3, List.append_assoc]
                have hv : sizeOf v < n := Nat.lt_of_lt_of_le (sz_head v vs') hsz
                rw [hDb]
                rw [(ih (sizeOf v) hv).2.1 t v blk (Nat.le_refl _) hty.1 hwf.1
                  hdy henc1 (tt ++ rest)]
                simp only [Option.some_bind]
                have hslot : slotSize t = 32 := by
                  rw [slotSize, if_pos hdy]
                rw [hslot]
                have hvs' : sizeOf vs' < n := Nat.lt_of_lt_of_le (sz_tail v vs') hsz
                have hD' : D.drop (pos + 32) = hh ++ ((mid ++ blk) ++ (tt ++ rest)) := by
                  rw [e1]
                  simp [List.append_assoc]
                have hbase' : base + blk.length =
                    (pos + 32) + hh.length + (mid ++ blk).length := by
                  simp only [List.length_append]
                  omega
                rw [(ih (sizeOf vs') hvs').2.2.1 ts' vs' (base + blk.length) hh tt
                  (Nat.le_refl _) hty.2 hwf.2 haux D (pos + 32) (mid ++ blk) rest
                  hD' hbase']
                rfl
            · simp at henc
        · rw [if_neg hdy] at henc
          have hdyf : isDynamic t = false := by
            simpa using hdy
          rcases henc1 : enc t v with _ | e
          · rw [henc1] at henc
            simp at henc
          · rw [henc1] at henc
            simp only [Option.some_bind] at henc
            rcases haux : encBlockAux base ts' vs' with _ | ⟨hh, tt⟩
            · rw [haux] at henc
              simp at henc
            · rw [haux] at henc
              simp only [Option.map_some', Option.some.injEq, Prod.mk.injEq] at henc
              obtain ⟨rfl, rfl⟩ := henc
              intro D pos mid rest hD hbase
              have hv : sizeOf v < n := Nat.lt_of_lt_of_le (sz_head v vs') hsz
              have hD1 : D.drop pos = e ++ (hh ++ (mid ++ (tt ++ rest))) := by
                rw [hD]
                simp [List.append_assoc]
              rw [decBlockList, decHead, if_neg hdy]
              rw [hD1]
              rw [(ih (sizeOf v) hv).1 t v e (Nat.le_refl _) hty.1 hwf.1 hdyf
                henc1 (hh ++ (mid ++ (tt ++ rest)))]
              simp only [Option.some_bind]
              have hslot : slotSize t = staticSize t := by
                rw [slotSize, if_neg hdy]
              rw [hslot]
              have hesz : e.length = staticSize t :=
                ((encLen_all (sizeOf v)).1 t v e (Nat.le_refl _) henc1).1 hdyf
              have e1 : D.drop (pos + e.length) = hh ++ (mid ++ (tt ++ rest)) :=
                drop_pos_append hD1
              have hD' : D.drop (pos + staticSize t) = hh ++ (mid ++ (tt ++ rest)) := by
                rw [← hesz]
                exact e1
              have hbase' : base = (pos + staticSize t) + hh.length + mid.length := by
                rw [hbase]
                simp only [List.length_append]
                omega
              have hvs' : sizeOf vs' < n := Nat.lt_of_lt_of_le (sz_tail v vs') hsz
              rw [(ih (sizeOf vs') hvs').2.2.1 ts' vs' base hh tt (Nat.le_refl _)
                hty.2 hwf.2 haux D (pos + staticSize t) mid rest hD' hbase']
              rfl
    · -- (E) all-static block decodes inline
      intro ts vs base hd tl hsz hty hwf hdyn henc
      match ts, vs with
      | [], [] =>
        simp only [encBlockAux, Option.some.injEq, Prod.mk.injEq] at henc
        obtain ⟨rfl, rfl⟩ := henc
        intro rest
        rw [decStaticList]
      | [], v :: vs' => simp [typedListB] at hty
      | t :: ts', [] => simp [typedListB] at hty
      | t :: ts', v :: vs' =>
        simp only [typedListB, Bool.and_eq_true] at hty
        simp only [wfListB, Bool.and_eq_true] at hwf
        rw [isDynamicList] at hdyn
        simp only [Bool.or_eq_false_iff] at hdyn
        simp only [encBlockAux] at henc
        rw [if_neg (by simp [hdyn.1])] at henc
        rcases henc1 : enc t v with _ | e
        · rw [henc1] at henc
          simp at henc
        · rw [henc1] at henc
          simp only [Option.some_bind] at henc
          rcases haux : encBlockAux base ts' vs' with _ | ⟨hh, tt⟩
          · rw [haux] at henc
            simp at henc
          · rw [haux] at henc
            simp only [Option.map_some', Option.some.injEq, Prod.mk.injEq] at henc
            obtain ⟨rfl, rfl⟩ := henc
            intro rest
            rw [decStaticList]
            have hv : sizeOf v < n := Nat.lt_of_lt_of_le (sz_head v vs') hsz
            rw [List.append_assoc]
            rw [(ih (sizeOf v) hv).1 t v e (Nat.le_refl _) hty.1 hwf.1 hdyn.1
              henc1 (hh ++ rest)]
            simp only [Option.some_bind]
            have hesz : e.length = staticSize t :=
              ((encLen_all (sizeOf v)).1 t v e (Nat.le_refl _) henc1).1 hdyn.1
            rw [drop_exact hesz]
            have hvs' : sizeOf vs' < n := Nat.lt_of_lt_of_le (sz_tail v vs') hsz
            rw [(ih (sizeOf vs') hvs').2.2.2 ts' vs' base hh tt (Nat.le_refl _)
              hty.2 hwf.2 hdyn.2 haux rest]
            rfl

/-- C1: for every well-formed parameter list and matching value list,
decoding the bytes produced by `encodeAbiParameters` returns the original
values; in particular this holds for a concrete instance with nested
tuples, nested dynamic arrays, an empty dynamic array and an empty
string. -/
theorem c1_abi_roundtrip :
    (∀ (ts : List AbiType) (vs : List AbiValue) (bytes : List Nat),
      wfListB ts = true → typedListB ts vs = true →
      encodeAbiParameters ts vs = some bytes →
      decodeAbiParameters ts bytes = some vs) ∧
    (∃ bs, encodeAbiParameters c1ExampleTypes c1ExampleValues = some bs ∧
      decodeAbiParameters c1ExampleTypes bs = some c1ExampleValues) := by
  have main : ∀ (ts : List AbiType) (vs : List AbiValue) (bytes : List Nat),
      wfListB ts = true → typedListB ts vs = true →
      encodeAbiParameters ts vs = some bytes →
      decodeAbiParameters ts bytes = some vs := by
    intro ts vs bytes hwf hty henc
    rw [encodeAbiParameters] at henc
    split_ifs at henc with hlen
    rw [encBlock] at henc
    rcases haux : encBlockAux (headLen ts) ts vs with _ | ⟨hh, tt⟩
    · rw [haux] at henc
      simp at henc
    · rw [haux] at henc
      simp only [Option.map_some', Option.some.injEq] at henc
      subst henc
      match ts, vs with
      | [], [] =>
        simp only [encBlockAux, Option.some.injEq, Prod.mk.injEq] at haux
        obtain ⟨rfl, rfl⟩ := haux
        rw [decodeAbiParameters]
        rfl
      | [], v :: vs' => simp [typedListB] at hty
      | t :: ts2, [] => simp [typedListB] at hty
      | t :: ts2, v :: vs' =>
        have hlenhh : hh.length = headLen (t :: ts2) :=
          ((encLen_all (sizeOf (v :: vs'))).2 (headLen (t :: ts2)) (t :: ts2)
            (v :: vs') hh tt (Nat.le_refl _) haux).1
        have httmod : tt.length % 32 = 0 :=
          ((encLen_all (sizeOf (v :: vs'))).2 (headLen (t :: ts2)) (t :: ts2)
            (v :: vs') hh tt (Nat.le_refl _) haux).2.1
        have hwft : wfTypeB t = true := by
          rw [wfListB] at hwf
          simp only [Bool.and_eq_true] at hwf
          exact hwf.1
        have hslot32 : 32 ≤ slotSize t := by
          rw [slotSize]
          split_ifs with hd
          · omega
          · exact staticSize_pos t hwft (by simpa using hd)
        have hhead : headLen (t :: ts2) = slotSize t + headLen ts2 := by
          rw [headLen]
        have hmodall : ((hh ++ tt)).length % 32 = 0 := by
          have hm := headLen_mod (t :: ts2)
          simp only [List.length_append]
          omega
        cases hh with
        | nil =>
          exfalso
          simp only [List.length_nil] at hlenhh
          omega
        | cons b hh2 =>
          rw [decodeAbiParameters]
          rw [if_neg (by simp)]
          rw [if_neg (by simp)]
          rw [if_neg (not_not_intro hmodall)]
          exact (abiRoundtrip_all (sizeOf (v :: vs'))).2.2.1 (t :: ts2)
            (v :: vs') (headLen (t :: ts2)) (b :: hh2) tt (Nat.le_refl _)
            hty hwf haux ((b :: hh2) ++ tt) 0 [] []
            (by simp) (by simp only [List.length_nil, hlenhh]; omega)
  refine ⟨main, ?_⟩
  rcases hE : encodeAbiParameters c1ExampleTypes c1ExampleValues with _ | bs
  · exact absurd hE (by decide)
  · exact ⟨bs, rfl, main c1ExampleTypes c1ExampleValues bs (by decide)
      (by decide) hE⟩

/-- The general round trip instantiated on a concrete single `uint256`. -/
theorem c1_abi_roundtrip_witness :
    decodeAbiParameters [AbiType.uint 256] (natToBytesBE 32 5) =
      some [AbiValue.vuint 5] :=
  c1_abi_roundtrip.1 [AbiType.uint 256] [AbiValue.vuint 5] (natToBytesBE 32 5)
    (by decide) (by decide) (by decide)

end Viem
